import Mathlib

/-!
# Verification of the oxischeme execution core

A shallow embedding of `src/value.rs` and `src/eval.rs` of the oxischeme
Scheme runtime: the tagged value model with its GC-tracing contract, the
analyzer (form → meaning), and the trampoline evaluator (meaning → value).

Heap records live behind opaque arena pointers in the source; here a pointer
is a `Nat` index and the arenas are explicit state.  Functions that chase
pointer chains (which the source lets diverge on cyclic data) take a fuel
argument and return `none` when the fuel runs out; `some` results are what
the source computes.

The external collaborators (heap allocator, lexical environment, activation
records, reader) and the two analysis stubs the source leaves unfinished
(`analyze_lambda`, `analyze_invocation`) are modelled from the spec; each
such definition carries a doc comment saying so.
-/

namespace Oxischeme

/-- Arena pointer to a `Cons` cell (`ConsPtr` in the source). -/
abbrev ConsPtr := Nat

/-- Arena pointer to a heap string (`StringPtr` in the source). -/
abbrev StringPtr := Nat

/-- Arena pointer to a `Procedure` (`ProcedurePtr` in the source). -/
abbrev ProcedurePtr := Nat

/-- Arena pointer to an environment record (`EnvironmentPtr` in the source). -/
abbrev EnvironmentPtr := Nat

/-- `Value` from `src/value.rs`: the closed tagged union of Scheme values.
Heap-referencing variants hold non-owning arena pointers; equality is
pointer identity for those variants, plain value equality otherwise, exactly
as the derived `PartialEq` on the source enum. -/
inductive Value where
  | EmptyList : Value
  | Pair (cons : ConsPtr) : Value
  | String (str : StringPtr) : Value
  | Symbol (sym : StringPtr) : Value
  | Integer (i : Int) : Value
  | Boolean (b : Bool) : Value
  | Character (c : Char) : Value
  | Procedure (p : ProcedurePtr) : Value
deriving DecidableEq, Repr

/-- `Cons` from `src/value.rs`: one link of a singly linked list. -/
structure Cons where
  car : Value
  cdr : Value
deriving DecidableEq, Repr

/-- `Procedure` from `src/value.rs`: parameter list, body, and definition
environment, all behind the heap. -/
structure Procedure where
  params : Value
  body : Value
  env : EnvironmentPtr
deriving DecidableEq, Repr

/-- `GcThing` from `src/heap.rs` (external), as far as the tracing contract
in `src/value.rs` uses it: a sum of the four kinds of heap pointers. -/
inductive GcThing where
  | from_string_ptr (s : StringPtr) : GcThing
  | from_cons_ptr (c : ConsPtr) : GcThing
  | from_procedure_ptr (p : ProcedurePtr) : GcThing
  | from_environment_ptr (e : EnvironmentPtr) : GcThing
deriving DecidableEq, Repr

/-- `impl ToGcThing for Value` in `src/value.rs`: the at-most-one handle a
value directly exposes to the collector. -/
def Value.to_gc_thing : Value → Option GcThing
  | .String str => some (.from_string_ptr str)
  | .Symbol sym => some (.from_string_ptr sym)
  | .Pair cons => some (.from_cons_ptr cons)
  | .Procedure p => some (.from_procedure_ptr p)
  | _ => none

/-- `impl Trace for Cons` in `src/value.rs`: push the car's handle if it has
one, then the cdr's handle if it has one. -/
def Cons.trace (c : Cons) : List GcThing :=
  let results : List GcThing := []
  let results := match c.car.to_gc_thing with
    | some car => results ++ [car]
    | none => results
  let results := match c.cdr.to_gc_thing with
    | some cdr => results ++ [cdr]
    | none => results
  results

/-- `impl Trace for Procedure` in `src/value.rs`: push the params handle if
any, the body handle if any, and the environment pointer unconditionally. -/
def Procedure.trace (p : Procedure) : List GcThing :=
  let results : List GcThing := []
  let results := match p.params.to_gc_thing with
    | some params => results ++ [params]
    | none => results
  let results := match p.body.to_gc_thing with
    | some body => results ++ [body]
    | none => results
  let results := results ++ [GcThing.from_environment_ptr p.env]
  results

/-- Modelled from the spec: the external heap/arena (§2, §6).  `conses` and
`strings` are the arenas behind `ConsPtr` and `StringPtr` (total: every
pointer dereferences to the record stored in its slot), and the seven
distinguished fields are the handles behind the heap's identity-consistent
well-known-symbol accessors `quote, if, begin, define, set!, lambda` and the
`unspecified` sentinel. -/
structure Heap where
  conses : ConsPtr → Cons
  strings : StringPtr → String
  quoteSym : StringPtr
  ifSym : StringPtr
  beginSym : StringPtr
  defineSym : StringPtr
  setBangSym : StringPtr
  lambdaSym : StringPtr
  unspecifiedSym : StringPtr

/-- Modelled from the spec: `heap.quote_symbol()` (§6). -/
def Heap.quote_symbol (h : Heap) : Value := .Symbol h.quoteSym

/-- Modelled from the spec: `heap.if_symbol()` (§6). -/
def Heap.if_symbol (h : Heap) : Value := .Symbol h.ifSym

/-- Modelled from the spec: `heap.begin_symbol()` (§6). -/
def Heap.begin_symbol (h : Heap) : Value := .Symbol h.beginSym

/-- Modelled from the spec: `heap.define_symbol()` (§6). -/
def Heap.define_symbol (h : Heap) : Value := .Symbol h.defineSym

/-- Modelled from the spec: `heap.set_bang_symbol()` (§6). -/
def Heap.set_bang_symbol (h : Heap) : Value := .Symbol h.setBangSym

/-- Modelled from the spec: `heap.lambda_symbol()` (§6). -/
def Heap.lambda_symbol (h : Heap) : Value := .Symbol h.lambdaSym

/-- Modelled from the spec: `heap.unspecified_symbol()` (§6). -/
def Heap.unspecified_symbol (h : Heap) : Value := .Symbol h.unspecifiedSym

/-- `Value::car` from `src/value.rs`: the car if this value is a pair. -/
def Value.car (v : Value) (h : Heap) : Option Value :=
  match v with
  | .Pair cons => some (h.conses cons).car
  | _ => none

/-- `Value::cdr` from `src/value.rs`: the cdr if this value is a pair. -/
def Value.cdr (v : Value) (h : Heap) : Option Value :=
  match v with
  | .Pair cons => some (h.conses cons).cdr
  | _ => none

/-- `Value::is_pair` from `src/value.rs`. -/
def Value.is_pair (v : Value) : Bool :=
  match v with
  | .Pair _ => true
  | _ => false

/-- `Value::is_atom` from `src/value.rs`. -/
def Value.is_atom (v : Value) : Bool :=
  !v.is_pair

/-- `Value::to_symbol` from `src/value.rs`: the symbol's string pointer. -/
def Value.to_symbol (v : Value) : Option StringPtr :=
  match v with
  | .Symbol sym => some sym
  | _ => none

/-- `Value::to_pair` from `src/value.rs`: the pair's cons pointer. -/
def Value.to_pair (v : Value) : Option ConsPtr :=
  match v with
  | .Pair cons => some cons
  | _ => none

/-- `Value::to_procedure` from `src/value.rs`: the procedure pointer. -/
def Value.to_procedure (v : Value) : Option ProcedurePtr :=
  match v with
  | .Procedure p => some p
  | _ => none

/-- `Value::len` from `src/value.rs`: proper-list length, `Err(())` on an
improper tail.  The source recurses through the cons arena and diverges on a
cyclic chain; `fuel` bounds that recursion, with `none` for exhaustion. -/
def Value.len (h : Heap) : Nat → Value → Option (Except Unit Nat)
  | 0, _ => none
  | _ + 1, .EmptyList => some (.ok 0)
  | fuel + 1, .Pair p => match Value.len h fuel (h.conses p).cdr with
    | some (.ok cdr_len) => some (.ok (cdr_len + 1))
    | some (.error e) => some (.error e)
    | none => none
  | _ + 1, _ => some (.error ())

/-- `Cons::cddr` from `src/value.rs`. -/
def Cons.cddr (c : Cons) (h : Heap) : Except String Value :=
  match c.cdr.cdr h with
  | some v => .ok v
  | none => .error "bad cddr"

/-- `Cons::cadr` from `src/value.rs`. -/
def Cons.cadr (c : Cons) (h : Heap) : Except String Value :=
  match c.cdr.car h with
  | some v => .ok v
  | none => .error "bad cadr"

/-- `Cons::cdddr` from `src/value.rs`. -/
def Cons.cdddr (c : Cons) (h : Heap) : Except String Value :=
  match c.cddr h with
  | .error e => .error e
  | .ok cddr => match cddr.cdr h with
    | some v => .ok v
    | none => .error "bad cdddr"

/-- `Cons::caddr` from `src/value.rs`. -/
def Cons.caddr (c : Cons) (h : Heap) : Except String Value :=
  match c.cddr h with
  | .error e => .error e
  | .ok cddr => match cddr.car h with
    | some v => .ok v
    | none => .error "bad caddr"

/-- `Cons::cadddr` from `src/value.rs`. -/
def Cons.cadddr (c : Cons) (h : Heap) : Except String Value :=
  match c.cdddr h with
  | .error e => .error e
  | .ok cdddr => match cdddr.car h with
    | some v => .ok v
    | none => .error "bad caddr"

/-- Modelled from the spec: the textual rendering of a value used in error
messages comes from the external display implementation; claims only depend
on it through the fixed message prefixes, so any injective-enough rendering
serves. -/
def formatValue : Value → String
  | .EmptyList => "()"
  | .Pair cons => "<pair " ++ toString cons ++ ">"
  | .String str => "<string " ++ toString str ++ ">"
  | .Symbol sym => "<symbol " ++ toString sym ++ ">"
  | .Integer i => toString i
  | .Boolean true => "#t"
  | .Boolean false => "#f"
  | .Character c => "#\\" ++ toString c
  | .Procedure p => "<procedure " ++ toString p ++ ">"

/-- Modelled from the spec: the lexical-environment symbol table (§2, §6),
a stack of scopes with the innermost scope first; a lexical address is
`(depth, index)` with depth counted outward from the innermost scope. -/
abbrev Env := List (List String)

/-- Index of a name inside one scope (first occurrence). -/
def scopeIndex : List String → String → Option Nat
  | [], _ => none
  | n :: rest, name =>
    if n = name then some 0 else (scopeIndex rest name).map (· + 1)

/-- Modelled from the spec: `Environment::lookup(name) -> Option<(depth,
index)>` (§6), searching scopes from the innermost outward. -/
def Environment.lookup (env : Env) (name : String) : Option (Nat × Nat) :=
  match env with
  | [] => none
  | scope :: rest => match scopeIndex scope name with
    | some j => some (0, j)
    | none => (Environment.lookup rest name).map (fun ij => (ij.1 + 1, ij.2))

/-- Modelled from the spec: `Environment::define(name) -> (depth, index)`
(§6), always assigning a fresh slot in the innermost scope. -/
def Environment.define (env : Env) (name : String) : (Nat × Nat) × Env :=
  match env with
  | [] => ((0, 0), [[name]])
  | scope :: rest => ((0, scope.length), (scope ++ [name]) :: rest)

/-- `MeaningData` from `src/eval.rs`, flattened to a closed sum as the spec
directs (§3, §9: the payload-plus-function-pointer pairing in the source is
dispatch plumbing only).  `Lambda` and `Invocation` are the two variants the
spec completes from the source's unfinished stubs (§3, §9). -/
inductive Meaning where
  | Quotation (v : Value) : Meaning
  | Reference (i j : Nat) : Meaning
  | SetVariable (i j : Nat) (definition_value_meaning : Meaning) : Meaning
  | Conditional (condition consequent alternative : Meaning) : Meaning
  | Sequence (first second : Meaning) : Meaning
  | Lambda (params : Value) (body : Meaning) : Meaning
  | Invocation (operator : Meaning) (operands : List Meaning) : Meaning
deriving Repr

/-- `MeaningResult` from `src/eval.rs`, with the analysis-time environment
threaded explicitly (the source mutates `heap.environment` in place). -/
abbrev MeaningResult := Except String (Meaning × Env)

/-- Sequencing for fuelled fallible computations: `none` (out of fuel) and
`Err` short-circuit, `Ok` feeds the continuation.  This is `try!` plus the
fuel plumbing. -/
def obind {ε α β : Type} (x : Option (Except ε α))
    (k : α → Option (Except ε β)) : Option (Except ε β) :=
  match x with
  | none => none
  | some (.error e) => some (.error e)
  | some (.ok a) => k a

/-- `is_auto_quoting` from `src/eval.rs`: true when the form needs no
evaluation. -/
def is_auto_quoting (form : Value) : Bool :=
  match form with
  | .EmptyList => false
  | .Pair _ => false
  | .Symbol _ => false
  | _ => true

/-- `analyze_atom` from `src/eval.rs`: autoquoting values become quotations,
symbols resolve through the environment, anything else is a static error. -/
def analyze_atom (h : Heap) (env : Env) (form : Value) : MeaningResult :=
  if is_auto_quoting form then
    .ok (.Quotation form, env)
  else
    match form.to_symbol with
    | some sym =>
      match Environment.lookup env (h.strings sym) with
      | some (i, j) => .ok (.Reference i j, env)
      | none => .error
          ("Static error: reference to unknown variable: " ++ h.strings sym)
    | none => .error ("Static error: Cannot evaluate: " ++ formatValue form)

/-- Modelled from the spec: the names of a lambda parameter list, "a
(possibly improper) list of symbols" in declaration order (§4.2), an
improper tail symbol being the variadic trailing parameter (§9); a
non-symbol in the list is a static error. -/
def paramNames (h : Heap) : Nat → Value → Option (Except String (List String))
  | 0, _ => none
  | _ + 1, .EmptyList => some (.ok [])
  | _ + 1, .Symbol sym => some (.ok [h.strings sym])
  | fuel + 1, .Pair p =>
    match (h.conses p).car with
    | .Symbol sym =>
      match paramNames h fuel (h.conses p).cdr with
      | some (.ok rest) => some (.ok (h.strings sym :: rest))
      | some (.error e) => some (.error e)
      | none => none
    | _ => some (.error "Static error: lambda parameters must be symbols")
  | _ + 1, _ => some (.error "Static error: lambda parameters must be symbols")

mutual

/-- `analyze` from `src/eval.rs`: dispatch on the form's shape.  A non-pair
is an atom (`is_atom` is the negation of `is_pair`); a pair dispatches on
its car against the well-known symbols in the source's guard order. -/
def analyze (h : Heap) : Nat → Env → Value → Option MeaningResult
  | 0, _, _ => none
  | fuel + 1, env, form =>
    match form with
    | .Pair p =>
      let v := (h.conses p).car
      if v = h.quote_symbol then analyze_quoted h fuel env (.Pair p)
      else if v = h.define_symbol then analyze_definition h fuel env (.Pair p)
      else if v = h.set_bang_symbol then analyze_set h fuel env (.Pair p)
      else if v = h.lambda_symbol then analyze_lambda h fuel env (.Pair p)
      else if v = h.if_symbol then analyze_conditional h fuel env (.Pair p)
      else if v = h.begin_symbol then analyze_sequence h fuel env (.Pair p)
      else analyze_invocation h fuel env (.Pair p)
    | v => some (analyze_atom h env v)

/-- `analyze_quoted` from `src/eval.rs`: `(quote X)` must have exactly two
parts and quotes its second element. -/
def analyze_quoted (h : Heap) : Nat → Env → Value → Option MeaningResult
  | 0, _, _ => none
  | fuel + 1, env, form =>
    match Value.len h fuel form with
    | none => none
    | some (.ok 2) =>
      match form with
      | .Pair p =>
        match (h.conses p).cdr with
        | .Pair q => some (.ok (.Quotation (h.conses q).car, env))
        | _ => some (.error "unreachable: len 2 means the cdr is a pair")
      | _ => some (.error "unreachable: len 2 means the form is a pair")
    | some _ =>
      some (.error "Static error: Wrong number of parts in quoted form")

/-- `analyze_definition` from `src/eval.rs`: `(define name value)` with
`name` a symbol; the value form is analyzed first, then a fresh slot is
defined in the innermost scope. -/
def analyze_definition (h : Heap) : Nat → Env → Value → Option MeaningResult
  | 0, _, _ => none
  | fuel + 1, env, form =>
    match Value.len h fuel form with
    | none => none
    | some (.ok 3) =>
      match form with
      | .Pair p =>
        let pair := h.conses p
        match pair.cadr h with
        | .error e => some (.error e)
        | .ok sym =>
          match sym.to_symbol with
          | some str =>
            match pair.caddr h with
            | .error e => some (.error e)
            | .ok def_value_form =>
              obind (analyze h fuel env def_value_form) fun (m, env') =>
                let ((i, j), env'') := Environment.define env' (h.strings str)
                some (.ok (.SetVariable i j m, env''))
          | none => some (.error "Static error: can only define symbols")
      | _ => some (.error "If len = 3, then form must be a pair")
    | some _ => some (.error "Static error: improperly formed definition")

/-- `analyze_set` from `src/eval.rs`: `(set! name value)` with `name` a
symbol that must already resolve; the value form is analyzed first. -/
def analyze_set (h : Heap) : Nat → Env → Value → Option MeaningResult
  | 0, _, _ => none
  | fuel + 1, env, form =>
    match Value.len h fuel form with
    | none => none
    | some (.ok 3) =>
      match form with
      | .Pair p =>
        let pair := h.conses p
        match pair.cadr h with
        | .error e => some (.error e)
        | .ok sym =>
          match sym.to_symbol with
          | some str =>
            match pair.caddr h with
            | .error e => some (.error e)
            | .ok set_value_form =>
              obind (analyze h fuel env set_value_form) fun (m, env') =>
                match Environment.lookup env' (h.strings str) with
                | some (i, j) => some (.ok (.SetVariable i j m, env'))
                | none => some (.error
                    ("Static error: cannot set! undefined variable: "
                      ++ h.strings str))
          | none => some (.error "Static error: can only set! symbols")
      | _ => some (.error "If len = 3, then form must be a pair")
    | some _ =>
      some (.error "Static error: improperly formed set! expression")

/-- Modelled from the spec: `analyze_lambda` is a stub in `src/eval.rs`;
§4.2 completes it: at least 3 elements, params a list of symbols, a new
nested scope opened with exactly those names, the body analyzed as a `begin`
inside that scope (the source's begin-body analysis is
`make_meaning_sequence`) and the scope closed afterwards, yielding
`Lambda(params, body-meaning)`. -/
def analyze_lambda (h : Heap) : Nat → Env → Value → Option MeaningResult
  | 0, _, _ => none
  | fuel + 1, env, form =>
    match Value.len h fuel form with
    | none => none
    | some (.ok n) =>
      if 3 ≤ n then
        match form with
        | .Pair p =>
          let pair := h.conses p
          match pair.cadr h with
          | .error e => some (.error e)
          | .ok params =>
            match pair.cddr h with
            | .error e => some (.error e)
            | .ok body_forms =>
              obind (paramNames h fuel params) fun names =>
                obind (make_meaning_sequence h fuel (names :: env) body_forms)
                  fun (body_meaning, env') =>
                    some (.ok (.Lambda params body_meaning, env'.tail))
        | _ => some (.error "unreachable: len at least 3 means a pair")
      else some (.error "Static error: improperly formed lambda")
    | some (.error _) =>
      some (.error "Static error: improperly formed lambda")

/-- `analyze_conditional` from `src/eval.rs`: `(if c t e)` has exactly four
parts, each of the three subforms analyzed in order. -/
def analyze_conditional (h : Heap) : Nat → Env → Value → Option MeaningResult
  | 0, _, _ => none
  | fuel + 1, env, form =>
    match Value.len h fuel form with
    | none => none
    | some (.ok 4) =>
      match form with
      | .Pair p =>
        let pair := h.conses p
        match pair.cadr h with
        | .error e => some (.error e)
        | .ok condition_form =>
          obind (analyze h fuel env condition_form) fun (cm, env₁) =>
            match pair.caddr h with
            | .error e => some (.error e)
            | .ok consequent_form =>
              obind (analyze h fuel env₁ consequent_form) fun (tm, env₂) =>
                match pair.cadddr h with
                | .error e => some (.error e)
                | .ok alternative_form =>
                  obind (analyze h fuel env₂ alternative_form)
                    fun (am, env₃) =>
                      some (.ok (.Conditional cm tm am, env₃))
      | _ => some (.error "If len = 4, then form must be a pair")
    | some _ =>
      some (.error "Static error: improperly formed if expression")

/-- `make_meaning_sequence` from `src/eval.rs`, verbatim: the first element
is analyzed; a singleton collapses to it; otherwise the **whole remaining
list** is handed back to `analyze` (not to `make_meaning_sequence`) and the
two results are wrapped in `Sequence`. -/
def make_meaning_sequence (h : Heap) : Nat → Env → Value → Option MeaningResult
  | 0, _, _ => none
  | fuel + 1, env, forms =>
    match forms with
    | .Pair p =>
      let cons := h.conses p
      obind (analyze h fuel env cons.car) fun (first, env₁) =>
        if cons.cdr = Value.EmptyList then
          some (.ok (first, env₁))
        else
          obind (analyze h fuel env₁ cons.cdr) fun (rest, env₂) =>
            some (.ok (.Sequence first rest, env₂))
    | _ => some (.error "Static error: improperly formed sequence")

/-- `analyze_sequence` from `src/eval.rs`: strip the `begin` keyword and
build the sequence meaning from the remaining forms. -/
def analyze_sequence (h : Heap) : Nat → Env → Value → Option MeaningResult
  | 0, _, _ => none
  | fuel + 1, env, form =>
    match form.cdr h with
    | some forms => make_meaning_sequence h fuel env forms
    | none => some (.error "Static error: improperly formed sequence")

/-- Modelled from the spec: `analyze_invocation` is a stub in `src/eval.rs`;
§4.2 completes it: the head is analyzed as the operator meaning, each
remaining element as an operand meaning, in order, yielding
`Invocation(operator, operands)`. -/
def analyze_invocation (h : Heap) : Nat → Env → Value → Option MeaningResult
  | 0, _, _ => none
  | fuel + 1, env, form =>
    match form with
    | .Pair p =>
      let cons := h.conses p
      obind (analyze h fuel env cons.car) fun (operator, env₁) =>
        obind (analyze_operands h fuel env₁ cons.cdr) fun (operands, env₂) =>
          some (.ok (.Invocation operator operands, env₂))
    | _ => some (.error "unreachable: invocations dispatch on pairs")

/-- Modelled from the spec: the operand forms of an invocation, "each
remaining element" of the form analyzed "in order" (§4.2); the remaining
elements come from a proper list. -/
def analyze_operands (h : Heap) :
    Nat → Env → Value → Option (Except String (List Meaning × Env))
  | 0, _, _ => none
  | fuel + 1, env, forms =>
    match forms with
    | .EmptyList => some (.ok ([], env))
    | .Pair p =>
      obind (analyze h fuel env (h.conses p).car) fun (m, env₁) =>
        obind (analyze_operands h fuel env₁ (h.conses p).cdr) fun (ms, env₂) =>
          some (.ok (m :: ms, env₂))
    | _ => some (.error "Static error: improperly formed invocation")

end

/-- Modelled from the spec: an activation record (§6, glossary), the runtime
counterpart of a lexical scope: current slot values, chained to its defining
activation. -/
structure Activation where
  parent : Option Nat
  slots : List Value
deriving DecidableEq, Repr

/-- Modelled from the spec: the runtime procedure record the completed
`Lambda` evaluation materializes (§4.3).  Where the source's `Procedure`
stores its body as a form, the spec-completed design stores the analyzed
body meaning and the captured activation, so an invocation can thunk the
body directly. -/
structure Closure where
  params : Value
  body : Meaning
  env : Nat
deriving Repr

/-- Modelled from the spec: the mutable runtime state the evaluator threads —
the activation arena (with the global activation at index 0, §6) and the
arena of procedures materialized by `Lambda` evaluation. -/
structure Store where
  activations : List Activation
  procedures : List Closure
deriving Repr

/-- Modelled from the spec: walk `i` parent links from activation `a`. -/
def Store.resolve (st : Store) : Nat → Nat → Option Nat
  | a, 0 => if a < st.activations.length then some a else none
  | a, i + 1 => match st.activations[a]? with
    | some act => match act.parent with
      | some p => st.resolve p i
      | none => none
    | none => none

/-- Modelled from the spec: `Activation::fetch(heap, depth, index)` (§6). -/
def Store.fetch (st : Store) (a i j : Nat) : Option Value :=
  match st.resolve a i with
  | some t => match st.activations[t]? with
    | some act => act.slots[j]?
    | none => none
  | none => none

/-- Write slot `j`, growing the slot list with `EmptyList` padding when the
slot is fresh (a `define` reaches its slot through `update` before anything
reads it, so the padding value is unobservable). -/
def writeSlot : List Value → Nat → Value → List Value
  | slots, j, v =>
    let slots := if slots.length ≤ j
      then slots ++ List.replicate (j + 1 - slots.length) Value.EmptyList
      else slots
    slots.set j v

/-- Modelled from the spec: `Activation::update(heap, depth, index, value)`
(§6). -/
def Store.update (st : Store) (a i j : Nat) (v : Value) : Option Store :=
  match st.resolve a i with
  | some t => match st.activations[t]? with
    | some act =>
      some { st with
        activations := st.activations.set t { act with slots := writeSlot act.slots j v } }
    | none => none
  | none => none

/-- Allocate a fresh activation, returning its pointer. -/
def Store.allocActivation (st : Store) (act : Activation) : Nat × Store :=
  (st.activations.length, { st with activations := st.activations ++ [act] })

/-- Allocate a fresh runtime procedure, returning its pointer. -/
def Store.allocProcedure (st : Store) (c : Closure) : Nat × Store :=
  (st.procedures.length, { st with procedures := st.procedures ++ [c] })

/-- `Trampoline` from `src/eval.rs`: a step result is a final value or the
next meaning to run. -/
inductive Trampoline where
  | Value (v : Oxischeme.Value) : Trampoline
  | Thunk (m : Meaning) : Trampoline
deriving Repr

/-- Modelled from the spec: bind argument values positionally to a parameter
list (§4.3); an arity mismatch against a non-variadic parameter list is a
runtime error.  §9 leaves the variadic arity policy to the implementer; this
model rejects improper parameter lists at invocation time (building a rest
list would allocate pairs, which the evaluation core never otherwise does). -/
def bindParams (h : Heap) : Nat → Value → List Value → Option (Except String (List Value))
  | 0, _, _ => none
  | _ + 1, .EmptyList, [] => some (.ok [])
  | _ + 1, .EmptyList, _ :: _ =>
    some (.error "Runtime error: wrong number of arguments")
  | _ + 1, .Pair _, [] =>
    some (.error "Runtime error: wrong number of arguments")
  | fuel + 1, .Pair p, v :: vs =>
    match bindParams h fuel (h.conses p).cdr vs with
    | some (.ok slots) => some (.ok (v :: slots))
    | some (.error e) => some (.error e)
    | none => none
  | _ + 1, _, _ =>
    some (.error "Runtime error: variadic parameter lists are not supported")

mutual

/-- `Meaning::evaluate_to_thunk` from `src/eval.rs`: run exactly one meaning
and return a final value or a thunk.  The per-variant bodies are the
`meaning_*_function`s of the source (the `MeaningData`/evaluator pairing is
always synchronized in a closed sum, so the source's panics vanish); the
`Lambda` and `Invocation` arms are modelled from the spec (§4.3).  The
activation pointer is threaded in and out because the completed invocation
arm retargets it at the callee's fresh activation. -/
def evaluate_to_thunk (h : Heap) :
    Nat → Store → Meaning → Nat → Option (Except String (Trampoline × Nat × Store))
  | 0, _, _, _ => none
  | fuel + 1, st, m, act =>
    match m with
    | .Quotation v => some (.ok (.Value v, act, st))
    | .Reference i j =>
      match st.fetch act i j with
      | some v => some (.ok (.Value v, act, st))
      | none => some (.error "Runtime error: bad lexical address")
    | .SetVariable i j definition_value_meaning =>
      obind (Meaning.evaluate h fuel st definition_value_meaning act) fun (v, st') =>
        match st'.update act i j v with
        | some st'' => some (.ok (.Value h.unspecified_symbol, act, st''))
        | none => some (.error "Runtime error: bad lexical address")
    | .Conditional condition consequent alternative =>
      obind (Meaning.evaluate h fuel st condition act) fun (v, st') =>
        some (.ok (.Thunk (if v = Value.Boolean false then alternative else consequent),
          act, st'))
    | .Sequence first second =>
      obind (Meaning.evaluate h fuel st first act) fun (_, st') =>
        some (.ok (.Thunk second, act, st'))
    | .Lambda params body =>
      let (p, st') := st.allocProcedure ⟨params, body, act⟩
      some (.ok (.Value (.Procedure p), act, st'))
    | .Invocation operator operands =>
      obind (Meaning.evaluate h fuel st operator act) fun (opv, st₁) =>
        match opv.to_procedure with
        | none => some (.error "Runtime error: expected a procedure")
        | some pp =>
          match st₁.procedures[pp]? with
          | none => some (.error "Runtime error: dangling procedure pointer")
          | some proc =>
            obind (evalOperands h fuel st₁ operands act) fun (args, st₂) =>
              obind (bindParams h fuel proc.params args) fun slots =>
                let (a, st₃) := st₂.allocActivation ⟨some proc.env, slots⟩
                some (.ok (.Thunk proc.body, a, st₃))

/-- `Meaning::evaluate` from `src/eval.rs`: take one step, then drive the
trampoline — each loop iteration unwraps one thunk with another single step
until a value appears. -/
def Meaning.evaluate (h : Heap) :
    Nat → Store → Meaning → Nat → Option (Except String (Value × Store))
  | 0, _, _, _ => none
  | fuel + 1, st, m, act =>
    match evaluate_to_thunk h fuel st m act with
    | none => none
    | some (.error e) => some (.error e)
    | some (.ok (.Value v, _, st')) => some (.ok (v, st'))
    | some (.ok (.Thunk m', act', st')) => Meaning.evaluate h fuel st' m' act'

/-- Modelled from the spec: evaluate invocation operands fully, left to
right (§4.3). -/
def evalOperands (h : Heap) :
    Nat → Store → List Meaning → Nat → Option (Except String (List Value × Store))
  | 0, _, _, _ => none
  | fuel + 1, st, ms, act =>
    match ms with
    | [] => some (.ok ([], st))
    | m :: rest =>
      obind (Meaning.evaluate h fuel st m act) fun (v, st₁) =>
        obind (evalOperands h fuel st₁ rest act) fun (vs, st₂) =>
          some (.ok (v :: vs, st₂))

end

mutual

/-- The fully recursive reference evaluator the spec compares the trampoline
against (§4.3's per-variant behavior with every tail position evaluated by a
direct recursive call instead of a returned thunk).  Stated from the spec's
words; the claim is that `Meaning.evaluate` computes the same results. -/
def evalRec (h : Heap) :
    Nat → Store → Meaning → Nat → Option (Except String (Value × Store))
  | 0, _, _, _ => none
  | fuel + 1, st, m, act =>
    match m with
    | .Quotation v => some (.ok (v, st))
    | .Reference i j =>
      match st.fetch act i j with
      | some v => some (.ok (v, st))
      | none => some (.error "Runtime error: bad lexical address")
    | .SetVariable i j definition_value_meaning =>
      obind (evalRec h fuel st definition_value_meaning act) fun (v, st') =>
        match st'.update act i j v with
        | some st'' => some (.ok (h.unspecified_symbol, st''))
        | none => some (.error "Runtime error: bad lexical address")
    | .Conditional condition consequent alternative =>
      obind (evalRec h fuel st condition act) fun (v, st') =>
        evalRec h fuel st'
          (if v = Value.Boolean false then alternative else consequent) act
    | .Sequence first second =>
      obind (evalRec h fuel st first act) fun (_, st') =>
        evalRec h fuel st' second act
    | .Lambda params body =>
      let (p, st') := st.allocProcedure ⟨params, body, act⟩
      some (.ok (.Procedure p, st'))
    | .Invocation operator operands =>
      obind (evalRec h fuel st operator act) fun (opv, st₁) =>
        match opv.to_procedure with
        | none => some (.error "Runtime error: expected a procedure")
        | some pp =>
          match st₁.procedures[pp]? with
          | none => some (.error "Runtime error: dangling procedure pointer")
          | some proc =>
            obind (evalRecOperands h fuel st₁ operands act) fun (args, st₂) =>
              obind (bindParams h fuel proc.params args) fun slots =>
                let (a, st₃) := st₂.allocActivation ⟨some proc.env, slots⟩
                evalRec h fuel st₃ proc.body a

/-- Operand evaluation for the recursive reference evaluator. -/
def evalRecOperands (h : Heap) :
    Nat → Store → List Meaning → Nat → Option (Except String (List Value × Store))
  | 0, _, _, _ => none
  | fuel + 1, st, ms, act =>
    match ms with
    | [] => some (.ok ([], st))
    | m :: rest =>
      obind (evalRec h fuel st m act) fun (v, st₁) =>
        obind (evalRecOperands h fuel st₁ rest act) fun (vs, st₂) =>
          some (.ok (v :: vs, st₂))

end

/-- `evaluate` from `src/eval.rs`: analyze the form, then run its meaning
against the global activation (index 0).  The analysis environment is
threaded out because the source keeps it inside the mutable heap. -/
def evaluate (h : Heap) (fuel : Nat) (env : Env) (st : Store) (form : Value) :
    Option (Except String (Value × Store × Env)) :=
  obind (analyze h fuel env form) fun (m, env') =>
    obind (Meaning.evaluate h fuel st m 0) fun (v, st') =>
      some (.ok (v, st', env'))

/-- Modelled from the spec: the reader's contribution to `evaluate_file`
(§6): a finite sequence of parsed forms plus a terminal parse-error sentinel
retrievable once the sequence is exhausted (`reader.get_result()`). -/
structure Reader where
  forms : List Value
  result : Except String Unit
deriving Repr

/-- The `for form in reader` loop of `evaluate_file`: evaluate each form in
order, keeping the last value (`acc` is the running `result`, initially the
empty list), short-circuiting on the first evaluation error. -/
def evalForms (h : Heap) (fuel : Nat) :
    Env → Store → List Value → Value → Option (Except String (Value × Store × Env))
  | env, st, [], acc => some (.ok (acc, st, env))
  | env, st, form :: rest, _ =>
    obind (evaluate h fuel env st form) fun (v, st', env') =>
      evalForms h fuel env' st' rest v

/-- `evaluate_file` from `src/eval.rs`.  The external `read_from_file` is
modelled by its result: `none` when reading the file fails outright,
otherwise a `Reader`.  Every form the reader produced is evaluated in order
(short-circuiting on the first evaluation error), then the reader's terminal
result is consulted and a parse error is returned; otherwise the last
form's value. -/
def evaluate_file (h : Heap) (fuel : Nat) (env : Env) (st : Store)
    (reader : Option Reader) : Option (Except String (Value × Store × Env)) :=
  match reader with
  | none => some (.error "Failed to read from file")
  | some r =>
    obind (evalForms h fuel env st r.forms Value.EmptyList) fun (v, st', env') =>
      match r.result with
      | .error msg => some (.error msg)
      | .ok _ => some (.ok (v, st', env'))

/-! ## Helper lemmas -/

@[simp]
theorem obind_none {ε α β : Type} (k : α → Option (Except ε β)) :
    obind none k = none := rfl

@[simp]
theorem obind_ok {ε α β : Type} (a : α) (k : α → Option (Except ε β)) :
    obind (some (.ok a)) k = k a := rfl

@[simp]
theorem obind_error {ε α β : Type} (e : ε) (k : α → Option (Except ε β)) :
    obind (some (.error e)) k = some (.error e) := rfl

theorem obind_eq_some {ε α β : Type} {x : Option (Except ε α)}
    {k : α → Option (Except ε β)} {r : Except ε β} :
    obind x k = some r ↔
      (∃ e, x = some (.error e) ∧ r = .error e) ∨
      (∃ a, x = some (.ok a) ∧ k a = some r) := by
  rcases x with _ | x
  · simp [obind]
  · rcases x with e | a
    · simp [obind]
      exact eq_comm
    · simp [obind]

/-! ## Shared concrete instances for witnesses -/

/-- String arena for the concrete heaps: slots 0–6 hold the well-known
names, further slots hold variable names used in concrete forms. -/
def witnessStrings : Nat → String
  | 0 => "quote"
  | 1 => "if"
  | 2 => "begin"
  | 3 => "define"
  | 4 => "set!"
  | 5 => "lambda"
  | 6 => "unspecified"
  | 7 => "x"
  | 8 => "y"
  | _ => "?"

/-- Build a concrete heap from a list of cons cells (unused slots hold the
`Default` cons of the source arena: both fields the empty list). -/
def mkHeap (cs : List Cons) : Heap :=
  { conses := fun n => (cs[n]?).getD ⟨.EmptyList, .EmptyList⟩
    strings := witnessStrings
    quoteSym := 0
    ifSym := 1
    beginSym := 2
    defineSym := 3
    setBangSym := 4
    lambdaSym := 5
    unspecifiedSym := 6 }

/-- A store holding just the (empty) global activation. -/
def initialStore : Store := { activations := [⟨none, []⟩], procedures := [] }

/-- Project an `evaluate` result to its value, forgetting the resulting
store and environment. -/
def resultValue (r : Option (Except String (Value × Store × Env))) :
    Option (Except String Value) :=
  r.map (fun x => x.map (fun t => t.1))

/-! ## Claims -/

/-- C9: the GC trace set of every `Value` contains at most one handle
(itself, exactly when the value is a String, Symbol, Pair, or Procedure, and
none otherwise); the trace set of every `Cons` contains at most two handles
(its car and its cdr, each exactly when heap-referencing); and the trace set
of every `Procedure` contains at most three handles (its params and body,
each exactly when heap-referencing, plus its captured environment
unconditionally). -/
theorem claim_C9_trace_sets :
    (∀ v : Value, v.to_gc_thing.toList.length ≤ 1) ∧
    (∀ s, (Value.String s).to_gc_thing = some (.from_string_ptr s)) ∧
    (∀ s, (Value.Symbol s).to_gc_thing = some (.from_string_ptr s)) ∧
    (∀ c, (Value.Pair c).to_gc_thing = some (.from_cons_ptr c)) ∧
    (∀ p, (Value.Procedure p).to_gc_thing = some (.from_procedure_ptr p)) ∧
    (Value.EmptyList.to_gc_thing = none) ∧
    (∀ i, (Value.Integer i).to_gc_thing = none) ∧
    (∀ b, (Value.Boolean b).to_gc_thing = none) ∧
    (∀ c, (Value.Character c).to_gc_thing = none) ∧
    (∀ c : Cons,
      c.trace = c.car.to_gc_thing.toList ++ c.cdr.to_gc_thing.toList ∧
      c.trace.length ≤ 2) ∧
    (∀ p : Procedure,
      p.trace = p.params.to_gc_thing.toList ++ p.body.to_gc_thing.toList ++
        [GcThing.from_environment_ptr p.env] ∧
      p.trace.length ≤ 3 ∧
      GcThing.from_environment_ptr p.env ∈ p.trace) := by
  refine ⟨?_, fun s => rfl, fun s => rfl, fun c => rfl, fun p => rfl, rfl,
    fun i => rfl, fun b => rfl, fun c => rfl, ?_, ?_⟩
  · intro v
    cases v <;> simp [Value.to_gc_thing]
  · intro c
    have htr : c.trace = c.car.to_gc_thing.toList ++ c.cdr.to_gc_thing.toList := by
      cases hcar : c.car.to_gc_thing <;> cases hcdr : c.cdr.to_gc_thing <;>
        simp [Cons.trace, hcar, hcdr]
    refine ⟨htr, ?_⟩
    rw [htr]
    have h1 : c.car.to_gc_thing.toList.length ≤ 1 := by
      cases c.car.to_gc_thing <;> simp
    have h2 : c.cdr.to_gc_thing.toList.length ≤ 1 := by
      cases c.cdr.to_gc_thing <;> simp
    simp only [List.length_append]
    omega
  · intro p
    have htr : p.trace = p.params.to_gc_thing.toList ++ p.body.to_gc_thing.toList ++
        [GcThing.from_environment_ptr p.env] := by
      cases hp : p.params.to_gc_thing <;> cases hb : p.body.to_gc_thing <;>
        simp [Procedure.trace, hp, hb]
    refine ⟨htr, ?_, ?_⟩
    · rw [htr]
      have h1 : p.params.to_gc_thing.toList.length ≤ 1 := by
        cases p.params.to_gc_thing <;> simp
      have h2 : p.body.to_gc_thing.toList.length ≤ 1 := by
        cases p.body.to_gc_thing <;> simp
      simp only [List.length_append, List.length_singleton]
      omega
    · rw [htr]
      simp

/-- C10: analyzing the empty-list form `()` always fails with a static
error: `EmptyList` is classified as an atom (`is_atom` returns true), is
excluded from the self-evaluating values (`is_auto_quoting` returns false),
and is not a symbol, so `analyze_atom` reaches the "Cannot evaluate" error
branch for it — and so does `analyze`, at any fuel that lets it take a
step. -/
theorem claim_C10_empty_list_is_static_error :
    Value.is_atom .EmptyList = true ∧
    is_auto_quoting .EmptyList = false ∧
    Value.to_symbol .EmptyList = none ∧
    (∀ (h : Heap) (env : Env),
      analyze_atom h env .EmptyList =
        .error ("Static error: Cannot evaluate: " ++ formatValue .EmptyList)) ∧
    (∀ (h : Heap) (env : Env) (fuel : Nat),
      analyze h (fuel + 1) env .EmptyList =
        some (.error ("Static error: Cannot evaluate: " ++ formatValue .EmptyList))) :=
  ⟨rfl, rfl, rfl, fun _ _ => rfl, fun _ _ _ => rfl⟩

/-- C6: every value that is not a pair, not a symbol, and not the empty list
(i.e. an Integer, Boolean, Character, String, or Procedure) is
self-evaluating: analysis yields a `Quotation` meaning and evaluation
returns the value itself unchanged. -/
theorem claim_C6_self_evaluating (h : Heap) (env : Env) (st : Store) (v : Value)
    (hpair : ∀ c, v ≠ .Pair c) (hsym : ∀ s, v ≠ .Symbol s)
    (hempty : v ≠ .EmptyList) :
    is_auto_quoting v = true ∧
    (∀ fuel, analyze h (fuel + 1) env v = some (.ok (.Quotation v, env))) ∧
    (∀ fuel, evaluate h (fuel + 2) env st v = some (.ok (v, st, env))) := by
  have haq : is_auto_quoting v = true := by
    cases v with
    | EmptyList => exact absurd rfl hempty
    | Pair c => exact absurd rfl (hpair c)
    | Symbol s => exact absurd rfl (hsym s)
    | _ => rfl
  have hana : ∀ fuel, analyze h (fuel + 1) env v = some (.ok (.Quotation v, env)) := by
    intro fuel
    cases v with
    | EmptyList => exact absurd rfl hempty
    | Pair c => exact absurd rfl (hpair c)
    | Symbol s => exact absurd rfl (hsym s)
    | _ => rfl
  refine ⟨haq, hana, ?_⟩
  intro fuel
  have hev : Meaning.evaluate h (fuel + 2) st (.Quotation v) 0 = some (.ok (v, st)) := rfl
  simp [evaluate, hana (fuel + 1), hev]

/-- Witness for C6 at the concrete input `42`: evaluating the integer form
returns it unchanged. -/
theorem claim_C6_witness :
    evaluate (mkHeap []) 7 [[]] initialStore (.Integer 42) =
      some (.ok (.Integer 42, initialStore, [[]])) :=
  (claim_C6_self_evaluating (mkHeap []) [[]] initialStore (.Integer 42)
    (fun c hc => by cases hc) (fun s hs => by cases hs) (by intro hc; cases hc)).2.2 5

/-- A value whose cdr-chain through heap `h` terminates in `EmptyList`
after `n` pairs: a proper list of length `n`. -/
inductive ProperChain (h : Heap) : Value → Nat → Prop
  | nil : ProperChain h .EmptyList 0
  | cons (p : ConsPtr) (n : Nat) :
      ProperChain h (h.conses p).cdr n → ProperChain h (.Pair p) (n + 1)

/-- A value whose cdr-chain through heap `h` reaches a non-pair,
non-empty-list tail after `k` pairs: an improper list. -/
inductive ImproperChain (h : Heap) : Value → Nat → Prop
  | tail (v : Value) : v ≠ .EmptyList → (∀ c, v ≠ .Pair c) →
      ImproperChain h v 0
  | cons (p : ConsPtr) (k : Nat) :
      ImproperChain h (h.conses p).cdr k → ImproperChain h (.Pair p) (k + 1)

/-- An improper chain is never a proper one. -/
theorem ImproperChain.not_proper {h : Heap} {v : Value} {k : Nat}
    (hi : ImproperChain h v k) : ∀ n, ¬ ProperChain h v n := by
  induction hi with
  | tail v hne hnp =>
    intro n hp
    cases hp with
    | nil => exact hne rfl
    | cons p m _ => exact hnp p rfl
  | cons p k _ ih =>
    intro n hp
    cases hp with
    | cons _ m hm => exact ih m hm

/-- C8: for every value `v`, `len(v)` returns `Ok(n)` with `n` the number of
pairs in the cdr-chain exactly when the chain terminates in `EmptyList` (a
proper list, with `len(EmptyList) = 0`), and returns an error whenever the
chain reaches a non-pair, non-empty-list tail (an improper list), never
returning a count in that case.  (Given fuel exceeding the chain length; a
`some` answer at any fuel is authoritative.) -/
theorem claim_C8_len (h : Heap) :
    (∀ v n, ProperChain h v n → ∀ fuel, n < fuel →
      Value.len h fuel v = some (.ok n)) ∧
    (∀ fuel v n, Value.len h fuel v = some (.ok n) → ProperChain h v n) ∧
    (∀ v k, ImproperChain h v k → ∀ fuel, k < fuel →
      Value.len h fuel v = some (.error ())) ∧
    (∀ v k, ImproperChain h v k → ∀ fuel n,
      Value.len h fuel v ≠ some (.ok n)) := by
  have part2 : ∀ fuel v n, Value.len h fuel v = some (.ok n) → ProperChain h v n := by
    intro fuel
    induction fuel with
    | zero =>
      intro v n hlen
      simp [Value.len] at hlen
    | succ f ih =>
      intro v n hlen
      cases v with
      | EmptyList =>
        simp [Value.len] at hlen
        rw [← hlen]
        exact .nil
      | Pair p =>
        rcases hc : Value.len h f (h.conses p).cdr with _ | e | m
        · simp [Value.len, hc] at hlen
        · simp [Value.len, hc] at hlen
        · simp [Value.len, hc] at hlen
          rw [← hlen]
          exact .cons p m (ih _ _ hc)
      | String s => simp [Value.len] at hlen
      | Symbol s => simp [Value.len] at hlen
      | Integer i => simp [Value.len] at hlen
      | Boolean b => simp [Value.len] at hlen
      | Character c => simp [Value.len] at hlen
      | Procedure p => simp [Value.len] at hlen
  refine ⟨?_, part2, ?_, ?_⟩
  · intro v n hpc
    induction hpc with
    | nil =>
      intro fuel hf
      obtain ⟨f, rfl⟩ : ∃ f, fuel = f + 1 := ⟨fuel - 1, by omega⟩
      rfl
    | cons p n hcdr ih =>
      intro fuel hf
      obtain ⟨f, rfl⟩ : ∃ f, fuel = f + 1 := ⟨fuel - 1, by omega⟩
      simp [Value.len, ih f (by omega)]
  · intro v k hic
    induction hic with
    | tail v hne hnp =>
      intro fuel hf
      obtain ⟨f, rfl⟩ : ∃ f, fuel = f + 1 := ⟨fuel - 1, by omega⟩
      cases v with
      | EmptyList => exact absurd rfl hne
      | Pair c => exact absurd rfl (hnp c)
      | _ => rfl
    | cons p k _ ih =>
      intro fuel hf
      obtain ⟨f, rfl⟩ : ∃ f, fuel = f + 1 := ⟨fuel - 1, by omega⟩
      simp [Value.len, ih f (by omega)]
  · intro v k hic fuel n hlen
    exact hic.not_proper n (part2 fuel v n hlen)

/-- The one-cell heap whose single cons is the improper list `(1 . 2)`. -/
def improperHeap : Heap := mkHeap [⟨.Integer 1, .Integer 2⟩]

/-- Witness for C8: on the improper list `(1 . 2)` the length computation
fails, and on the empty list it returns 0. -/
theorem claim_C8_witness :
    Value.len improperHeap 2 (.Pair 0) = some (.error ()) ∧
    Value.len improperHeap 1 .EmptyList = some (.ok 0) :=
  ⟨(claim_C8_len improperHeap).2.2.1 (.Pair 0) 1
      (.cons 0 0 (.tail (.Integer 2) (by intro hc; cases hc)
        (fun c hc => by cases hc))) 2 (by omega),
    (claim_C8_len improperHeap).1 .EmptyList 0 .nil 1 (by omega)⟩

/-- Concrete heap holding the form `(if #f 1 2)` at `Pair 0`. -/
def ifFalseHeap : Heap := mkHeap
  [⟨.Symbol 1, .Pair 1⟩, ⟨.Boolean false, .Pair 2⟩,
   ⟨.Integer 1, .Pair 3⟩, ⟨.Integer 2, .EmptyList⟩]

/-- Concrete heap holding the form `(if 0 1 2)` at `Pair 0`. -/
def ifZeroHeap : Heap := mkHeap
  [⟨.Symbol 1, .Pair 1⟩, ⟨.Integer 0, .Pair 2⟩,
   ⟨.Integer 1, .Pair 3⟩, ⟨.Integer 2, .EmptyList⟩]

/-- C5: a `Conditional` meaning first fully evaluates its condition
(non-tail); the alternative is selected exactly when the condition's value
equals the boolean false value, and any other value — including the integer
zero and the empty list — selects the consequent; the selected branch is
returned as a thunk.  In particular `(if #f 1 2)` evaluates to 2 and
`(if 0 1 2)` evaluates to 1. -/
theorem claim_C5_conditional (h : Heap) :
    (∀ fuel st act condition consequent alternative v st',
      Meaning.evaluate h fuel st condition act = some (.ok (v, st')) →
      evaluate_to_thunk h (fuel + 1) st
          (.Conditional condition consequent alternative) act =
        some (.ok (.Thunk (if v = Value.Boolean false then alternative
          else consequent), act, st'))) ∧
    (∀ fuel st act condition consequent alternative st',
      Meaning.evaluate h fuel st condition act =
          some (.ok (Value.Boolean false, st')) →
      evaluate_to_thunk h (fuel + 1) st
          (.Conditional condition consequent alternative) act =
        some (.ok (.Thunk alternative, act, st'))) ∧
    (∀ fuel st act condition consequent alternative v st',
      v ≠ Value.Boolean false →
      Meaning.evaluate h fuel st condition act = some (.ok (v, st')) →
      evaluate_to_thunk h (fuel + 1) st
          (.Conditional condition consequent alternative) act =
        some (.ok (.Thunk consequent, act, st'))) ∧
    ((Value.Integer 0 ≠ Value.Boolean false) ∧
      (Value.EmptyList ≠ Value.Boolean false)) ∧
    resultValue (evaluate ifFalseHeap 20 [[]] initialStore (.Pair 0)) =
      some (.ok (.Integer 2)) ∧
    resultValue (evaluate ifZeroHeap 20 [[]] initialStore (.Pair 0)) =
      some (.ok (.Integer 1)) := by
  have part1 : ∀ fuel st act condition consequent alternative v st',
      Meaning.evaluate h fuel st condition act = some (.ok (v, st')) →
      evaluate_to_thunk h (fuel + 1) st
          (.Conditional condition consequent alternative) act =
        some (.ok (.Thunk (if v = Value.Boolean false then alternative
          else consequent), act, st')) := by
    intro fuel st act condition consequent alternative v st' hcond
    simp [evaluate_to_thunk, hcond]
  refine ⟨part1, ?_, ?_, ⟨(by intro hc; cases hc), (by intro hc; cases hc)⟩, rfl, rfl⟩
  · intro fuel st act condition consequent alternative st' hcond
    have := part1 fuel st act condition consequent alternative _ st' hcond
    simpa using this
  · intro fuel st act condition consequent alternative v st' hv hcond
    have := part1 fuel st act condition consequent alternative v st' hcond
    simpa [hv] using this

/-- Witness for C5: with the condition meaning `Quotation #f`, the step on
the conditional thunks the alternative. -/
theorem claim_C5_witness :
    evaluate_to_thunk (mkHeap []) 3 initialStore
        (.Conditional (.Quotation (.Boolean false)) (.Quotation (.Integer 1))
          (.Quotation (.Integer 2))) 0 =
      some (.ok (.Thunk (.Quotation (.Integer 2)), 0, initialStore)) :=
  (claim_C5_conditional (mkHeap [])).2.1 2 initialStore 0
    (.Quotation (.Boolean false)) (.Quotation (.Integer 1))
    (.Quotation (.Integer 2)) initialStore rfl

/-- Concrete heap holding the form `(begin 1 2 3)` at `Pair 0`. -/
def beginHeap : Heap := mkHeap
  [⟨.Symbol 2, .Pair 1⟩, ⟨.Integer 1, .Pair 2⟩,
   ⟨.Integer 2, .Pair 3⟩, ⟨.Integer 3, .EmptyList⟩]

/-- C3 (evaluating the code at the failing input): `make_meaning_sequence`
hands the tail `(2 3)` of a multi-element `begin` body back to `analyze`
(`src/eval.rs` line 378) instead of folding it as a sequence, and `analyze`
classifies `(2 3)` as an invocation of the value `2`; so `(begin 1 2 3)`
analyzes to `Sequence(Quotation 1, Invocation(Quotation 2, [Quotation 3]))`
— not to nested `Sequence` meanings — and evaluating it is the runtime type
error "expected a procedure", not 3.  (Against the source's stub
`analyze_invocation`, analysis of the tail already fails with the stub's
error; either way the claimed behavior is violated.) -/
theorem claim_C3_begin_folds_into_invocation :
    analyze beginHeap 20 [[]] (.Pair 0) =
      some (.ok (.Sequence (.Quotation (.Integer 1))
        (.Invocation (.Quotation (.Integer 2)) [.Quotation (.Integer 3)]),
        [[]])) ∧
    resultValue (evaluate beginHeap 20 [[]] initialStore (.Pair 0)) =
      some (.error "Runtime error: expected a procedure") :=
  ⟨rfl, rfl⟩

/-- Running `evalForms` over a list split: once the prefix succeeds, the
whole run continues from the prefix's resulting state. -/
theorem evalForms_append (h : Heap) (fuel : Nat) :
    ∀ (as bs : List Value) (env : Env) (st : Store) (acc v₁ : Value)
      (st₁ : Store) (env₁ : Env),
      evalForms h fuel env st as acc = some (.ok (v₁, st₁, env₁)) →
      evalForms h fuel env st (as ++ bs) acc = evalForms h fuel env₁ st₁ bs v₁ := by
  intro as
  induction as with
  | nil =>
    intro bs env st acc v₁ st₁ env₁ hpre
    simp [evalForms] at hpre
    obtain ⟨rfl, rfl, rfl⟩ := hpre
    rfl
  | cons a rest ih =>
    intro bs env st acc v₁ st₁ env₁ hpre
    simp only [evalForms] at hpre
    rcases obind_eq_some.mp hpre with ⟨e, hx, he⟩ | ⟨⟨v, st', env'⟩, hx, hk⟩
    · cases he
    · rw [List.cons_append]
      simp only [evalForms, hx, obind_ok]
      exact ih bs env' st' v v₁ st₁ env₁ hk

/-- C7: `evaluate_file` evaluates every form produced by the reader in
order and, on success, returns the value of the last form (as `evaluate`
computes it in the state threaded through the earlier forms); it returns an
error result as soon as any form's evaluation fails — whatever forms follow
are not evaluated and cannot change the result — and it returns an error
result when reading fails outright or when the reader reports a terminal
parse error. -/
theorem claim_C7_evaluate_file (h : Heap) (fuel : Nat) (env : Env) (st : Store) :
    (evaluate_file h fuel env st none =
      some (.error "Failed to read from file")) ∧
    (∀ forms v st' env',
      evalForms h fuel env st forms .EmptyList = some (.ok (v, st', env')) →
      evaluate_file h fuel env st (some ⟨forms, .ok ()⟩) =
        some (.ok (v, st', env'))) ∧
    (∀ fs f v st' env',
      evalForms h fuel env st (fs ++ [f]) .EmptyList = some (.ok (v, st', env')) →
      ∃ acc₀ st₀ env₀,
        evalForms h fuel env st fs .EmptyList = some (.ok (acc₀, st₀, env₀)) ∧
        evaluate h fuel env₀ st₀ f = some (.ok (v, st', env'))) ∧
    (∀ fs₁ f acc₀ st₀ env₀ e,
      evalForms h fuel env st fs₁ .EmptyList = some (.ok (acc₀, st₀, env₀)) →
      evaluate h fuel env₀ st₀ f = some (.error e) →
      ∀ fs₂ res, evaluate_file h fuel env st (some ⟨fs₁ ++ f :: fs₂, res⟩) =
        some (.error e)) ∧
    (∀ forms msg v st' env',
      evalForms h fuel env st forms .EmptyList = some (.ok (v, st', env')) →
      evaluate_file h fuel env st (some ⟨forms, .error msg⟩) =
        some (.error msg)) := by
  refine ⟨rfl, ?_, ?_, ?_, ?_⟩
  · intro forms v st' env' hrun
    simp [evaluate_file, hrun]
  · intro fs f v st' env' hrun
    have hsplit : ∀ (as : List Value) (env₂ : Env) (st₂ : Store) (acc : Value),
        evalForms h fuel env₂ st₂ (as ++ [f]) acc = some (.ok (v, st', env')) →
        ∃ acc₀ st₀ env₀,
          evalForms h fuel env₂ st₂ as acc = some (.ok (acc₀, st₀, env₀)) ∧
          evaluate h fuel env₀ st₀ f = some (.ok (v, st', env')) := by
      intro as
      induction as with
      | nil =>
        intro env₂ st₂ acc hrun
        refine ⟨acc, st₂, env₂, rfl, ?_⟩
        simp only [List.nil_append, evalForms] at hrun
        rcases obind_eq_some.mp hrun with ⟨e, hx, he⟩ | ⟨⟨v₂, st₃, env₃⟩, hx, hk⟩
        · cases he
        · simp [evalForms] at hk
          obtain ⟨rfl, rfl, rfl⟩ := hk
          exact hx
      | cons a rest ih =>
        intro env₂ st₂ acc hrun
        rw [List.cons_append] at hrun
        simp only [evalForms] at hrun
        rcases obind_eq_some.mp hrun with ⟨e, hx, he⟩ | ⟨⟨v₂, st₃, env₃⟩, hx, hk⟩
        · cases he
        · obtain ⟨acc₀, st₀, env₀, h1, h2⟩ := ih env₃ st₃ v₂ hk
          refine ⟨acc₀, st₀, env₀, ?_, h2⟩
          simp only [evalForms, hx, obind_ok]
          exact h1
    exact hsplit fs env st .EmptyList hrun
  · intro fs₁ f acc₀ st₀ env₀ e hpre herr fs₂ res
    have hap := evalForms_append h fuel fs₁ (f :: fs₂) env st .EmptyList acc₀ st₀ env₀ hpre
    simp only [evaluate_file, hap, evalForms, herr, obind_error]
  · intro forms msg v st' env' hrun
    simp [evaluate_file, hrun]

/-- Witness for C7: a file whose forms are `1`, `()`, `99` fails at the
second form with the static error for `()`, whatever follows; and the file
`1 2` with a clean reader result evaluates to 2. -/
theorem claim_C7_witness :
    evaluate_file (mkHeap []) 5 [[]] initialStore
        (some ⟨[.Integer 1, .EmptyList, .Integer 99], .ok ()⟩) =
      some (.error ("Static error: Cannot evaluate: " ++ formatValue .EmptyList)) ∧
    evaluate_file (mkHeap []) 5 [[]] initialStore
        (some ⟨[.Integer 1, .Integer 2], .ok ()⟩) =
      some (.ok (.Integer 2, initialStore, [[]])) :=
  ⟨(claim_C7_evaluate_file (mkHeap []) 5 [[]] initialStore).2.2.2.1
      [.Integer 1] .EmptyList (.Integer 1) initialStore [[]] _ rfl rfl
      [.Integer 99] (.ok ()),
    (claim_C7_evaluate_file (mkHeap []) 5 [[]] initialStore).2.1
      [.Integer 1, .Integer 2] (.Integer 2) initialStore [[]] rfl⟩

/-- Concrete heap holding `(lambda (x) y)` at `Pair 0`, with `y` unbound. -/
def lambdaBadHeap : Heap := mkHeap
  [⟨.Symbol 5, .Pair 1⟩, ⟨.Pair 2, .Pair 3⟩,
   ⟨.Symbol 7, .EmptyList⟩, ⟨.Symbol 8, .EmptyList⟩]

/-- Counterexample to C1 as stated: `(lambda (x) y)` is a pair headed by
the well-known `lambda` symbol, has exactly 3 elements, and its params
`(x)` are a list of symbols — yet analysis returns a static error (the body
references the unknown variable `y`) rather than a `Lambda` meaning. -/
theorem claim_C1_counterexample :
    (lambdaBadHeap.conses 0).car = lambdaBadHeap.lambda_symbol ∧
    Value.len lambdaBadHeap 10 (.Pair 0) = some (.ok 3) ∧
    paramNames lambdaBadHeap 10 (.Pair 2) = some (.ok ["x"]) ∧
    (lambdaBadHeap.conses 0).cadr lambdaBadHeap = .ok (.Pair 2) ∧
    analyze lambdaBadHeap 10 [[]] (.Pair 0) =
      some (.error "Static error: reference to unknown variable: y") :=
  ⟨rfl, rfl, rfl, rfl, rfl⟩

/-- C1 (amended): for every form that is a pair whose head is the
well-known `lambda` symbol (distinct from the `quote`, `define` and `set!`
symbols checked before it) and that has at least 3 elements with a params
list of symbols, **provided the body analyzes successfully as a
begin-sequence in the freshly opened nested scope holding exactly the param
names**, `analyze` succeeds and returns a `Lambda` meaning containing the
params and that body meaning, closing the scope afterwards. -/
theorem claim_C1_lambda_analysis (h : Heap) (env : Env) (fuel : Nat)
    (p : ConsPtr) (n : Nat) (params body_forms : Value) (names : List String)
    (body_meaning : Meaning) (env' : Env)
    (hcar : (h.conses p).car = h.lambda_symbol)
    (hq : h.lambda_symbol ≠ h.quote_symbol)
    (hd : h.lambda_symbol ≠ h.define_symbol)
    (hs : h.lambda_symbol ≠ h.set_bang_symbol)
    (hlen : Value.len h fuel (.Pair p) = some (.ok n))
    (h3 : 3 ≤ n)
    (hparams : (h.conses p).cadr h = .ok params)
    (hbody : (h.conses p).cddr h = .ok body_forms)
    (hnames : paramNames h fuel params = some (.ok names))
    (hseq : make_meaning_sequence h fuel (names :: env) body_forms =
      some (.ok (body_meaning, env'))) :
    analyze h (fuel + 2) env (.Pair p) =
      some (.ok (.Lambda params body_meaning, env'.tail)) := by
  have hstep : analyze h (fuel + 2) env (.Pair p) =
      analyze_lambda h (fuel + 1) env (.Pair p) := by
    simp only [analyze, hcar]
    rw [if_neg hq, if_neg hd, if_neg hs]
    simp
  rw [hstep]
  simp only [analyze_lambda, hlen, if_pos h3, hparams, hbody, hnames, hseq,
    obind_ok]

/-- Concrete heap holding `(lambda (x) x)` at `Pair 0`. -/
def lambdaGoodHeap : Heap := mkHeap
  [⟨.Symbol 5, .Pair 1⟩, ⟨.Pair 2, .Pair 3⟩,
   ⟨.Symbol 7, .EmptyList⟩, ⟨.Symbol 7, .EmptyList⟩]

/-- Witness for C1 (amended) at `(lambda (x) x)`: the analysis yields
`Lambda((x), Reference(0,0))` and restores the outer environment. -/
theorem claim_C1_witness :
    analyze lambdaGoodHeap 7 [[]] (.Pair 0) =
      some (.ok (.Lambda (.Pair 2) (.Reference 0 0), [[]])) :=
  claim_C1_lambda_analysis lambdaGoodHeap [[]] 5 0 3 (.Pair 2) (.Pair 3)
    ["x"] (.Reference 0 0) [["x"], []] rfl (by decide) (by decide) (by decide)
    rfl (by omega) rfl rfl rfl rfl

/-- C2: for every form that is a pair whose head is not one of the
special-form symbols (`quote`, `define`, `set!`, `lambda`, `if`, `begin`),
`analyze` succeeds whenever analysis of the head and of each remaining
element succeeds (threading the environment left to right), and returns an
`Invocation` meaning whose operator is the analyzed head and whose operands
are the analyzed remaining elements in order. -/
theorem claim_C2_invocation_analysis (h : Heap) (env : Env) (fuel : Nat)
    (p : ConsPtr)
    (hq : (h.conses p).car ≠ h.quote_symbol)
    (hd : (h.conses p).car ≠ h.define_symbol)
    (hs : (h.conses p).car ≠ h.set_bang_symbol)
    (hl : (h.conses p).car ≠ h.lambda_symbol)
    (hi : (h.conses p).car ≠ h.if_symbol)
    (hb : (h.conses p).car ≠ h.begin_symbol)
    (operator : Meaning) (env₁ : Env)
    (hop : analyze h fuel env (h.conses p).car = some (.ok (operator, env₁)))
    (operands : List Meaning) (env₂ : Env)
    (hops : analyze_operands h fuel env₁ (h.conses p).cdr =
      some (.ok (operands, env₂))) :
    analyze h (fuel + 2) env (.Pair p) =
      some (.ok (.Invocation operator operands, env₂)) := by
  have hstep : analyze h (fuel + 2) env (.Pair p) =
      analyze_invocation h (fuel + 1) env (.Pair p) := by
    simp only [analyze]
    rw [if_neg hq, if_neg hd, if_neg hs, if_neg hl, if_neg hi, if_neg hb]
  rw [hstep]
  simp only [analyze_invocation, hop, hops, obind_ok]

/-- Concrete heap holding the form `(42 7)` at `Pair 0`. -/
def invocationHeap : Heap := mkHeap
  [⟨.Integer 42, .Pair 1⟩, ⟨.Integer 7, .EmptyList⟩]

/-- Witness for C2 at `(42 7)`: both elements analyze to quotations, and the
form analyzes to `Invocation(Quotation 42, [Quotation 7])`. -/
theorem claim_C2_witness :
    analyze invocationHeap 5 [[]] (.Pair 0) =
      some (.ok (.Invocation (.Quotation (.Integer 42))
        [.Quotation (.Integer 7)], [[]])) :=
  claim_C2_invocation_analysis invocationHeap [[]] 3 0
    (by decide) (by decide) (by decide) (by decide) (by decide) (by decide)
    (.Quotation (.Integer 42)) [[]] rfl
    [.Quotation (.Integer 7)] [[]] rfl

/-! ## Fuel monotonicity

A fuelled run that finishes (with a value or an error) finishes with the
same outcome at any larger fuel; `none` is only ever fuel exhaustion. -/

theorem obind_mono {ε α β : Type} {x x' : Option (Except ε α)}
    {k k' : α → Option (Except ε β)} {r : Except ε β}
    (hx : ∀ s, x = some s → x' = some s)
    (hk : ∀ a r', k a = some r' → k' a = some r') :
    obind x k = some r → obind x' k' = some r := by
  intro hb
  rcases obind_eq_some.mp hb with ⟨e, hxe, rfl⟩ | ⟨a, hxa, hka⟩
  · rw [hx _ hxe]
    rfl
  · rw [hx _ hxa, obind_ok]
    exact hk a r hka

theorem bindParams_mono (h : Heap) :
    ∀ {f : Nat} {ps : Value} {vs : List Value} {r},
      bindParams h f ps vs = some r →
      ∀ {f'}, f ≤ f' → bindParams h f' ps vs = some r := by
  intro f
  induction f with
  | zero =>
    intro ps vs r hb
    simp [bindParams] at hb
  | succ f ih =>
    intro ps vs r hb f' hle
    obtain ⟨g, rfl⟩ : ∃ g, f' = g + 1 := ⟨f' - 1, by omega⟩
    have hfg : f ≤ g := by omega
    cases ps with
    | Pair p =>
      cases vs with
      | nil => exact hb
      | cons v vs' =>
        simp only [bindParams] at hb ⊢
        rcases hc : bindParams h f (h.conses p).cdr vs' with _ | e | slots
        · rw [hc] at hb
          cases hb
        · rw [hc] at hb
          rw [ih hc hfg]
          exact hb
        · rw [hc] at hb
          rw [ih hc hfg]
          exact hb
    | _ => cases vs <;> exact hb

theorem eval_mono (h : Heap) : ∀ f : Nat,
    (∀ {st m act r}, evaluate_to_thunk h f st m act = some r →
      ∀ {f'}, f ≤ f' → evaluate_to_thunk h f' st m act = some r) ∧
    (∀ {st m act r}, Meaning.evaluate h f st m act = some r →
      ∀ {f'}, f ≤ f' → Meaning.evaluate h f' st m act = some r) ∧
    (∀ {st ms act r}, evalOperands h f st ms act = some r →
      ∀ {f'}, f ≤ f' → evalOperands h f' st ms act = some r) := by
  intro f
  induction f with
  | zero =>
    refine ⟨?_, ?_, ?_⟩
    · intro st m act r hb
      simp [evaluate_to_thunk] at hb
    · intro st m act r hb
      simp [Meaning.evaluate] at hb
    · intro st ms act r hb
      simp [evalOperands] at hb
  | succ f ih =>
    obtain ⟨ihT, ihE, ihO⟩ := ih
    refine ⟨?_, ?_, ?_⟩
    · intro st m act r hb f' hle
      obtain ⟨g, rfl⟩ : ∃ g, f' = g + 1 := ⟨f' - 1, by omega⟩
      have hfg : f ≤ g := by omega
      cases m with
      | Quotation v => exact hb
      | Reference i j => exact hb
      | SetVariable i j dm =>
        simp only [evaluate_to_thunk] at hb ⊢
        exact obind_mono (fun s hs => ihE hs hfg) (fun a r' h' => h') hb
      | Conditional c t e =>
        simp only [evaluate_to_thunk] at hb ⊢
        exact obind_mono (fun s hs => ihE hs hfg) (fun a r' h' => h') hb
      | Sequence a b =>
        simp only [evaluate_to_thunk] at hb ⊢
        exact obind_mono (fun s hs => ihE hs hfg) (fun a r' h' => h') hb
      | Lambda ps bm => exact hb
      | Invocation op args =>
        simp only [evaluate_to_thunk] at hb ⊢
        refine obind_mono (fun s hs => ihE hs hfg) ?_ hb
        rintro ⟨opv, st₁⟩ r' h'
        rcases hcoerce : opv.to_procedure with _ | pp
        · simp only [hcoerce] at h' ⊢
          exact h'
        · simp only [hcoerce] at h' ⊢
          rcases hproc : st₁.procedures[pp]? with _ | proc
          · simp only [hproc] at h' ⊢
            exact h'
          · simp only [hproc] at h' ⊢
            refine obind_mono (fun s hs => ihO hs hfg) ?_ h'
            rintro ⟨argvals, st₂⟩ r'' h''
            exact obind_mono (fun s hs => bindParams_mono h hs hfg)
              (fun a r₃ h₃ => h₃) h''
    · intro st m act r hb f' hle
      obtain ⟨g, rfl⟩ : ∃ g, f' = g + 1 := ⟨f' - 1, by omega⟩
      have hfg : f ≤ g := by omega
      simp only [Meaning.evaluate] at hb ⊢
      rcases ht : evaluate_to_thunk h f st m act with _ | e | ⟨tr, act', st'⟩
      · rw [ht] at hb
        cases hb
      · rw [ht] at hb
        rw [ihT ht hfg]
        exact hb
      · rw [ht] at hb
        rw [ihT ht hfg]
        cases tr with
        | Value v => exact hb
        | Thunk m' => exact ihE hb hfg
    · intro st ms act r hb f' hle
      obtain ⟨g, rfl⟩ : ∃ g, f' = g + 1 := ⟨f' - 1, by omega⟩
      have hfg : f ≤ g := by omega
      cases ms with
      | nil => exact hb
      | cons m rest =>
        simp only [evalOperands] at hb ⊢
        refine obind_mono (fun s hs => ihE hs hfg) ?_ hb
        rintro ⟨v, st₁⟩ r' h'
        exact obind_mono (fun s hs => ihO hs hfg) (fun a r'' h'' => h'') h'

theorem evalRec_mono (h : Heap) : ∀ f : Nat,
    (∀ {st m act r}, evalRec h f st m act = some r →
      ∀ {f'}, f ≤ f' → evalRec h f' st m act = some r) ∧
    (∀ {st ms act r}, evalRecOperands h f st ms act = some r →
      ∀ {f'}, f ≤ f' → evalRecOperands h f' st ms act = some r) := by
  intro f
  induction f with
  | zero =>
    refine ⟨?_, ?_⟩
    · intro st m act r hb
      simp [evalRec] at hb
    · intro st ms act r hb
      simp [evalRecOperands] at hb
  | succ f ih =>
    obtain ⟨ihR, ihO⟩ := ih
    refine ⟨?_, ?_⟩
    · intro st m act r hb f' hle
      obtain ⟨g, rfl⟩ : ∃ g, f' = g + 1 := ⟨f' - 1, by omega⟩
      have hfg : f ≤ g := by omega
      cases m with
      | Quotation v => exact hb
      | Reference i j => exact hb
      | SetVariable i j dm =>
        simp only [evalRec] at hb ⊢
        exact obind_mono (fun s hs => ihR hs hfg) (fun a r' h' => h') hb
      | Conditional c t e =>
        simp only [evalRec] at hb ⊢
        exact obind_mono (fun s hs => ihR hs hfg)
          (fun a r' h' => ihR h' hfg) hb
      | Sequence a b =>
        simp only [evalRec] at hb ⊢
        exact obind_mono (fun s hs => ihR hs hfg)
          (fun a r' h' => ihR h' hfg) hb
      | Lambda ps bm => exact hb
      | Invocation op args =>
        simp only [evalRec] at hb ⊢
        refine obind_mono (fun s hs => ihR hs hfg) ?_ hb
        rintro ⟨opv, st₁⟩ r' h'
        rcases hcoerce : opv.to_procedure with _ | pp
        · simp only [hcoerce] at h' ⊢
          exact h'
        · simp only [hcoerce] at h' ⊢
          rcases hproc : st₁.procedures[pp]? with _ | proc
          · simp only [hproc] at h' ⊢
            exact h'
          · simp only [hproc] at h' ⊢
            refine obind_mono (fun s hs => ihO hs hfg) ?_ h'
            rintro ⟨argvals, st₂⟩ r'' h''
            refine obind_mono (fun s hs => bindParams_mono h hs hfg) ?_ h''
            intro slots r₃ h₃
            exact ihR h₃ hfg
    · intro st ms act r hb f' hle
      obtain ⟨g, rfl⟩ : ∃ g, f' = g + 1 := ⟨f' - 1, by omega⟩
      have hfg : f ≤ g := by omega
      cases ms with
      | nil => exact hb
      | cons m rest =>
        simp only [evalRecOperands] at hb ⊢
        refine obind_mono (fun s hs => ihR hs hfg) ?_ hb
        rintro ⟨v, st₁⟩ r' h'
        exact obind_mono (fun s hs => ihO hs hfg) (fun a r'' h'' => h'') h'

/-! ## The trampoline computes exactly what recursive evaluation computes -/

/-- What a single trampoline step means to the recursive evaluator: an
error is an error; a final value is a final result; a thunk stands for
whatever the recursive evaluator makes of the thunked meaning in the
thunk's state and activation. -/
def SimOut (h : Heap) (st : Store) (m : Meaning) (act : Nat) :
    Except String (Trampoline × Nat × Store) → Prop
  | .error e => ∃ g, evalRec h g st m act = some (.error e)
  | .ok (.Value v, _, st') => ∃ g, evalRec h g st m act = some (.ok (v, st'))
  | .ok (.Thunk m', act', st') =>
    ∀ r, (∃ g, evalRec h g st' m' act' = some r) →
      ∃ g, evalRec h g st m act = some r

theorem to_evalRec (h : Heap) : ∀ f : Nat,
    (∀ {st m act out}, evaluate_to_thunk h f st m act = some out →
      SimOut h st m act out) ∧
    (∀ {st m act r}, Meaning.evaluate h f st m act = some r →
      ∃ g, evalRec h g st m act = some r) ∧
    (∀ {st ms act r}, evalOperands h f st ms act = some r →
      ∃ g, evalRecOperands h g st ms act = some r) := by
  intro f
  induction f with
  | zero =>
    refine ⟨?_, ?_, ?_⟩
    · intro st m act out hb
      simp [evaluate_to_thunk] at hb
    · intro st m act r hb
      simp [Meaning.evaluate] at hb
    · intro st ms act r hb
      simp [evalOperands] at hb
  | succ f ih =>
    obtain ⟨ihT, ihE, ihO⟩ := ih
    refine ⟨?_, ?_, ?_⟩
    · intro st m act out hb
      cases m with
      | Quotation v =>
        obtain rfl := Option.some.inj hb
        simp only [SimOut]
        exact ⟨1, rfl⟩
      | Reference i j =>
        simp only [evaluate_to_thunk] at hb
        rcases hf : st.fetch act i j with _ | v <;> rw [hf] at hb <;>
          obtain rfl := Option.some.inj hb <;> simp only [SimOut]
        · exact ⟨1, by simp [evalRec, hf]⟩
        · exact ⟨1, by simp [evalRec, hf]⟩
      | SetVariable i j dm =>
        simp only [evaluate_to_thunk] at hb
        rcases obind_eq_some.mp hb with ⟨e, hx, rfl⟩ | ⟨⟨v, st'⟩, hx, hk⟩
        · obtain ⟨g₀, hg₀⟩ := ihE hx
          simp only [SimOut]
          exact ⟨g₀ + 1, by simp [evalRec, hg₀]⟩
        · rcases hu : st'.update act i j v with _ | st'' <;> rw [hu] at hk <;>
            obtain rfl := Option.some.inj hk <;> simp only [SimOut] <;>
            obtain ⟨g₀, hg₀⟩ := ihE hx
          · exact ⟨g₀ + 1, by simp [evalRec, hg₀, hu]⟩
          · exact ⟨g₀ + 1, by simp [evalRec, hg₀, hu]⟩
      | Conditional c t e =>
        simp only [evaluate_to_thunk] at hb
        rcases obind_eq_some.mp hb with ⟨e', hx, rfl⟩ | ⟨⟨v, st'⟩, hx, hk⟩
        · obtain ⟨g₀, hg₀⟩ := ihE hx
          simp only [SimOut]
          exact ⟨g₀ + 1, by simp [evalRec, hg₀]⟩
        · obtain rfl := Option.some.inj hk
          simp only [SimOut]
          rintro r ⟨g₁, hg₁⟩
          obtain ⟨g₀, hg₀⟩ := ihE hx
          refine ⟨max g₀ g₁ + 1, ?_⟩
          have hc : evalRec h (max g₀ g₁) st c act = some (.ok (v, st')) :=
            (evalRec_mono h g₀).1 hg₀ (Nat.le_max_left _ _)
          have hbr := (evalRec_mono h g₁).1 hg₁ (Nat.le_max_right g₀ g₁)
          simp [evalRec, hc, hbr]
      | Sequence a b =>
        simp only [evaluate_to_thunk] at hb
        rcases obind_eq_some.mp hb with ⟨e', hx, rfl⟩ | ⟨⟨v, st'⟩, hx, hk⟩
        · obtain ⟨g₀, hg₀⟩ := ihE hx
          simp only [SimOut]
          exact ⟨g₀ + 1, by simp [evalRec, hg₀]⟩
        · obtain rfl := Option.some.inj hk
          simp only [SimOut]
          rintro r ⟨g₁, hg₁⟩
          obtain ⟨g₀, hg₀⟩ := ihE hx
          refine ⟨max g₀ g₁ + 1, ?_⟩
          have ha : evalRec h (max g₀ g₁) st a act = some (.ok (v, st')) :=
            (evalRec_mono h g₀).1 hg₀ (Nat.le_max_left _ _)
          have hbr := (evalRec_mono h g₁).1 hg₁ (Nat.le_max_right g₀ g₁)
          simp [evalRec, ha, hbr]
      | Lambda ps bm =>
        obtain rfl := Option.some.inj hb
        simp only [SimOut]
        exact ⟨1, rfl⟩
      | Invocation op args =>
        simp only [evaluate_to_thunk] at hb
        rcases obind_eq_some.mp hb with ⟨e, hx, rfl⟩ | ⟨⟨opv, st₁⟩, hx, hk⟩
        · obtain ⟨g₀, hg₀⟩ := ihE hx
          simp only [SimOut]
          exact ⟨g₀ + 1, by simp [evalRec, hg₀]⟩
        · obtain ⟨g₀, hg₀⟩ := ihE hx
          rcases hcoerce : opv.to_procedure with _ | pp
          · rw [hcoerce] at hk
            obtain rfl := Option.some.inj hk
            simp only [SimOut]
            exact ⟨g₀ + 1, by simp [evalRec, hg₀, hcoerce]⟩
          · rw [hcoerce] at hk
            dsimp only at hk
            rcases hproc : st₁.procedures[pp]? with _ | proc
            · rw [hproc] at hk
              obtain rfl := Option.some.inj hk
              simp only [SimOut]
              exact ⟨g₀ + 1, by simp [evalRec, hg₀, hcoerce, hproc]⟩
            · rw [hproc] at hk
              rcases obind_eq_some.mp hk with ⟨e, hops, rfl⟩ |
                ⟨⟨argvals, st₂⟩, hops, hk₂⟩
              · obtain ⟨g₁, hg₁⟩ := ihO hops
                simp only [SimOut]
                refine ⟨max g₀ g₁ + 1, ?_⟩
                have hop' := (evalRec_mono h g₀).1 hg₀ (Nat.le_max_left g₀ g₁)
                have hops' := (evalRec_mono h g₁).2 hg₁ (Nat.le_max_right g₀ g₁)
                simp [evalRec, hop', hcoerce, hproc, hops']
              · rcases obind_eq_some.mp hk₂ with ⟨e, hbind, rfl⟩ |
                  ⟨slots, hbind, hk₃⟩
                · obtain ⟨g₁, hg₁⟩ := ihO hops
                  simp only [SimOut]
                  refine ⟨max f (max g₀ g₁) + 1, ?_⟩
                  have hop' := (evalRec_mono h g₀).1 hg₀
                    (le_trans (Nat.le_max_left g₀ g₁) (Nat.le_max_right f _))
                  have hops' := (evalRec_mono h g₁).2 hg₁
                    (le_trans (Nat.le_max_right g₀ g₁) (Nat.le_max_right f _))
                  have hbind' := bindParams_mono h hbind
                    (Nat.le_max_left f (max g₀ g₁))
                  simp [evalRec, hop', hcoerce, hproc, hops', hbind']
                · obtain ⟨g₁, hg₁⟩ := ihO hops
                  obtain rfl := Option.some.inj hk₃
                  simp only [SimOut]
                  rintro r ⟨g₂, hg₂⟩
                  refine ⟨max f (max g₀ (max g₁ g₂)) + 1, ?_⟩
                  have hop' := (evalRec_mono h g₀).1 hg₀
                    (le_trans (Nat.le_max_left g₀ (max g₁ g₂))
                      (Nat.le_max_right f (max g₀ (max g₁ g₂))))
                  have hops' := (evalRec_mono h g₁).2 hg₁
                    (le_trans (le_trans (Nat.le_max_left g₁ g₂)
                      (Nat.le_max_right g₀ (max g₁ g₂)))
                      (Nat.le_max_right f (max g₀ (max g₁ g₂))))
                  have hbody' := (evalRec_mono h g₂).1 hg₂
                    (le_trans (le_trans (Nat.le_max_right g₁ g₂)
                      (Nat.le_max_right g₀ (max g₁ g₂)))
                      (Nat.le_max_right f (max g₀ (max g₁ g₂))))
                  have hbind' := bindParams_mono h hbind
                    (Nat.le_max_left f (max g₀ (max g₁ g₂)))
                  simp [evalRec, hop', hcoerce, hproc, hops', hbind', hbody']
    · intro st m act r hb
      simp only [Meaning.evaluate] at hb
      rcases ht : evaluate_to_thunk h f st m act with _ | e | ⟨tr, act', st'⟩
      · rw [ht] at hb
        cases hb
      · rw [ht] at hb
        obtain rfl := Option.some.inj hb
        exact ihT ht
      · rw [ht] at hb
        cases tr with
        | Value v =>
          obtain rfl := Option.some.inj hb
          exact ihT ht
        | Thunk m' =>
          exact (ihT ht) r (ihE hb)
    · intro st ms act r hb
      cases ms with
      | nil =>
        obtain rfl := Option.some.inj hb
        exact ⟨1, rfl⟩
      | cons m rest =>
        simp only [evalOperands] at hb
        rcases obind_eq_some.mp hb with ⟨e, hx, rfl⟩ | ⟨⟨v, st₁⟩, hx, hk⟩
        · obtain ⟨g₀, hg₀⟩ := ihE hx
          exact ⟨g₀ + 1, by simp [evalRecOperands, hg₀]⟩
        · rcases obind_eq_some.mp hk with ⟨e, hrest, rfl⟩ |
            ⟨⟨vs, st₂⟩, hrest, hk₂⟩
          · obtain ⟨g₀, hg₀⟩ := ihE hx
            obtain ⟨g₁, hg₁⟩ := ihO hrest
            refine ⟨max g₀ g₁ + 1, ?_⟩
            have hm' := (evalRec_mono h g₀).1 hg₀ (Nat.le_max_left g₀ g₁)
            have hr' := (evalRec_mono h g₁).2 hg₁ (Nat.le_max_right g₀ g₁)
            simp [evalRecOperands, hm', hr']
          · obtain rfl := Option.some.inj hk₂
            obtain ⟨g₀, hg₀⟩ := ihE hx
            obtain ⟨g₁, hg₁⟩ := ihO hrest
            refine ⟨max g₀ g₁ + 1, ?_⟩
            have hm' := (evalRec_mono h g₀).1 hg₀ (Nat.le_max_left g₀ g₁)
            have hr' := (evalRec_mono h g₁).2 hg₁ (Nat.le_max_right g₀ g₁)
            simp [evalRecOperands, hm', hr']

/-- One unfolding of the trampoline driver: take a step, then drive. -/
theorem Meaning.evaluate_succ (h : Heap) (f : Nat) (st : Store) (m : Meaning)
    (act : Nat) :
    Meaning.evaluate h (f + 1) st m act =
      match evaluate_to_thunk h f st m act with
      | none => none
      | some (.error e) => some (.error e)
      | some (.ok (.Value v, _, st')) => some (.ok (v, st'))
      | some (.ok (.Thunk m', act', st')) => Meaning.evaluate h f st' m' act' :=
  rfl

theorem to_trampoline (h : Heap) : ∀ f : Nat,
    (∀ {st m act r}, evalRec h f st m act = some r →
      ∃ g, Meaning.evaluate h g st m act = some r) ∧
    (∀ {st ms act r}, evalRecOperands h f st ms act = some r →
      ∃ g, evalOperands h g st ms act = some r) := by
  intro f
  induction f with
  | zero =>
    refine ⟨?_, ?_⟩
    · intro st m act r hb
      simp [evalRec] at hb
    · intro st ms act r hb
      simp [evalRecOperands] at hb
  | succ f ih =>
    obtain ⟨ihR, ihO⟩ := ih
    refine ⟨?_, ?_⟩
    · intro st m act r hb
      cases m with
      | Quotation v =>
        obtain rfl := Option.some.inj hb
        exact ⟨2, rfl⟩
      | Reference i j =>
        simp only [evalRec] at hb
        rcases hf : st.fetch act i j with _ | v <;> rw [hf] at hb <;>
          obtain rfl := Option.some.inj hb
        · exact ⟨2, by simp [Meaning.evaluate, evaluate_to_thunk, hf]⟩
        · exact ⟨2, by simp [Meaning.evaluate, evaluate_to_thunk, hf]⟩
      | SetVariable i j dm =>
        simp only [evalRec] at hb
        rcases obind_eq_some.mp hb with ⟨e, hx, rfl⟩ | ⟨⟨v, st'⟩, hx, hk⟩
        · obtain ⟨g₀, hg₀⟩ := ihR hx
          exact ⟨g₀ + 2, by simp [Meaning.evaluate, evaluate_to_thunk, hg₀]⟩
        · obtain ⟨g₀, hg₀⟩ := ihR hx
          dsimp only at hk
          rcases hu : st'.update act i j v with _ | st'' <;> rw [hu] at hk <;>
            obtain rfl := Option.some.inj hk
          · exact ⟨g₀ + 2, by
              simp [Meaning.evaluate, evaluate_to_thunk, hg₀, hu]⟩
          · exact ⟨g₀ + 2, by
              simp [Meaning.evaluate, evaluate_to_thunk, hg₀, hu]⟩
      | Conditional c t e =>
        simp only [evalRec] at hb
        rcases obind_eq_some.mp hb with ⟨e', hx, rfl⟩ | ⟨⟨v, st'⟩, hx, hk⟩
        · obtain ⟨g₀, hg₀⟩ := ihR hx
          exact ⟨g₀ + 2, by simp [Meaning.evaluate, evaluate_to_thunk, hg₀]⟩
        · obtain ⟨g₀, hg₀⟩ := ihR hx
          dsimp only at hk
          obtain ⟨g₁, hg₁⟩ := ihR hk
          refine ⟨max g₀ g₁ + 1 + 1, ?_⟩
          have hc := (eval_mono h g₀).2.1 hg₀ (Nat.le_max_left g₀ g₁)
          have hbr := (eval_mono h g₁).2.1 hg₁
            (le_trans (Nat.le_max_right g₀ g₁) (Nat.le_succ _))
          have hstep : evaluate_to_thunk h (max g₀ g₁ + 1) st
              (.Conditional c t e) act =
              some (.ok (.Thunk (if v = Value.Boolean false then e else t),
                act, st')) := by
            simp [evaluate_to_thunk, hc]
          rw [Meaning.evaluate_succ, hstep]
          exact hbr
      | Sequence a b =>
        simp only [evalRec] at hb
        rcases obind_eq_some.mp hb with ⟨e', hx, rfl⟩ | ⟨⟨v, st'⟩, hx, hk⟩
        · obtain ⟨g₀, hg₀⟩ := ihR hx
          exact ⟨g₀ + 2, by simp [Meaning.evaluate, evaluate_to_thunk, hg₀]⟩
        · obtain ⟨g₀, hg₀⟩ := ihR hx
          dsimp only at hk
          obtain ⟨g₁, hg₁⟩ := ihR hk
          refine ⟨max g₀ g₁ + 1 + 1, ?_⟩
          have ha := (eval_mono h g₀).2.1 hg₀ (Nat.le_max_left g₀ g₁)
          have hbb := (eval_mono h g₁).2.1 hg₁
            (le_trans (Nat.le_max_right g₀ g₁) (Nat.le_succ _))
          have hstep : evaluate_to_thunk h (max g₀ g₁ + 1) st
              (.Sequence a b) act = some (.ok (.Thunk b, act, st')) := by
            simp [evaluate_to_thunk, ha]
          rw [Meaning.evaluate_succ, hstep]
          exact hbb
      | Lambda ps bm =>
        obtain rfl := Option.some.inj hb
        exact ⟨2, rfl⟩
      | Invocation op args =>
        simp only [evalRec] at hb
        rcases obind_eq_some.mp hb with ⟨e, hx, rfl⟩ | ⟨⟨opv, st₁⟩, hx, hk⟩
        · obtain ⟨g₀, hg₀⟩ := ihR hx
          exact ⟨g₀ + 2, by simp [Meaning.evaluate, evaluate_to_thunk, hg₀]⟩
        · obtain ⟨g₀, hg₀⟩ := ihR hx
          dsimp only at hk
          rcases hcoerce : opv.to_procedure with _ | pp
          · rw [hcoerce] at hk
            obtain rfl := Option.some.inj hk
            exact ⟨g₀ + 2, by
              simp [Meaning.evaluate, evaluate_to_thunk, hg₀, hcoerce]⟩
          · rw [hcoerce] at hk
            dsimp only at hk
            rcases hproc : st₁.procedures[pp]? with _ | proc
            · rw [hproc] at hk
              obtain rfl := Option.some.inj hk
              exact ⟨g₀ + 2, by
                simp [Meaning.evaluate, evaluate_to_thunk, hg₀, hcoerce, hproc]⟩
            · rw [hproc] at hk
              rcases obind_eq_some.mp hk with ⟨e, hops, rfl⟩ |
                ⟨⟨argvals, st₂⟩, hops, hk₂⟩
              · obtain ⟨g₁, hg₁⟩ := ihO hops
                refine ⟨max g₀ g₁ + 1 + 1, ?_⟩
                have hop' := (eval_mono h g₀).2.1 hg₀ (Nat.le_max_left g₀ g₁)
                have hops' := (eval_mono h g₁).2.2 hg₁ (Nat.le_max_right g₀ g₁)
                have hstep : evaluate_to_thunk h (max g₀ g₁ + 1) st
                    (.Invocation op args) act = some (.error e) := by
                  simp [evaluate_to_thunk, hop', hcoerce, hproc, hops']
                rw [Meaning.evaluate_succ, hstep]
              · dsimp only at hk₂
                rcases obind_eq_some.mp hk₂ with ⟨e, hbind, rfl⟩ |
                  ⟨slots, hbind, hk₃⟩
                · obtain ⟨g₁, hg₁⟩ := ihO hops
                  refine ⟨max f (max g₀ g₁) + 1 + 1, ?_⟩
                  have hop' := (eval_mono h g₀).2.1 hg₀
                    (le_trans (Nat.le_max_left g₀ g₁)
                      (Nat.le_max_right f (max g₀ g₁)))
                  have hops' := (eval_mono h g₁).2.2 hg₁
                    (le_trans (Nat.le_max_right g₀ g₁)
                      (Nat.le_max_right f (max g₀ g₁)))
                  have hbind' := bindParams_mono h hbind
                    (Nat.le_max_left f (max g₀ g₁))
                  have hstep : evaluate_to_thunk h (max f (max g₀ g₁) + 1) st
                      (.Invocation op args) act = some (.error e) := by
                    simp [evaluate_to_thunk, hop', hcoerce, hproc, hops', hbind']
                  rw [Meaning.evaluate_succ, hstep]
                · obtain ⟨g₁, hg₁⟩ := ihO hops
                  obtain ⟨g₂, hg₂⟩ := ihR hk₃
                  refine ⟨max f (max g₀ (max g₁ g₂)) + 1 + 1, ?_⟩
                  have hop' := (eval_mono h g₀).2.1 hg₀
                    (le_trans (Nat.le_max_left g₀ (max g₁ g₂))
                      (Nat.le_max_right f (max g₀ (max g₁ g₂))))
                  have hops' := (eval_mono h g₁).2.2 hg₁
                    (le_trans (le_trans (Nat.le_max_left g₁ g₂)
                      (Nat.le_max_right g₀ (max g₁ g₂)))
                      (Nat.le_max_right f (max g₀ (max g₁ g₂))))
                  have hbody' := (eval_mono h g₂).2.1 hg₂
                    (le_trans (le_trans (le_trans (Nat.le_max_right g₁ g₂)
                      (Nat.le_max_right g₀ (max g₁ g₂)))
                      (Nat.le_max_right f (max g₀ (max g₁ g₂))))
                      (Nat.le_succ _))
                  have hbind' := bindParams_mono h hbind
                    (Nat.le_max_left f (max g₀ (max g₁ g₂)))
                  have hstep : evaluate_to_thunk h (max f (max g₀ (max g₁ g₂)) + 1)
                      st (.Invocation op args) act =
                      some (.ok (.Thunk proc.body,
                        (st₂.allocActivation ⟨some proc.env, slots⟩).1,
                        (st₂.allocActivation ⟨some proc.env, slots⟩).2)) := by
                    simp [evaluate_to_thunk, hop', hcoerce, hproc, hops', hbind']
                  rw [Meaning.evaluate_succ, hstep]
                  exact hbody'
    · intro st ms act r hb
      cases ms with
      | nil =>
        obtain rfl := Option.some.inj hb
        exact ⟨1, rfl⟩
      | cons m rest =>
        simp only [evalRecOperands] at hb
        rcases obind_eq_some.mp hb with ⟨e, hx, rfl⟩ | ⟨⟨v, st₁⟩, hx, hk⟩
        · obtain ⟨g₀, hg₀⟩ := ihR hx
          exact ⟨g₀ + 1, by simp [evalOperands, hg₀]⟩
        · obtain ⟨g₀, hg₀⟩ := ihR hx
          dsimp only at hk
          rcases obind_eq_some.mp hk with ⟨e, hrest, rfl⟩ |
            ⟨⟨vs, st₂⟩, hrest, hk₂⟩
          · obtain ⟨g₁, hg₁⟩ := ihO hrest
            refine ⟨max g₀ g₁ + 1, ?_⟩
            have hm' := (eval_mono h g₀).2.1 hg₀ (Nat.le_max_left g₀ g₁)
            have hr' := (eval_mono h g₁).2.2 hg₁ (Nat.le_max_right g₀ g₁)
            simp [evalOperands, hm', hr']
          · obtain rfl := Option.some.inj hk₂
            obtain ⟨g₁, hg₁⟩ := ihO hrest
            refine ⟨max g₀ g₁ + 1, ?_⟩
            have hm' := (eval_mono h g₀).2.1 hg₀ (Nat.le_max_left g₀ g₁)
            have hr' := (eval_mono h g₁).2.2 hg₁ (Nat.le_max_right g₀ g₁)
            simp [evalOperands, hm', hr']

/-- C4: every meaning in tail position — the selected branch of a
`Conditional`, the second element of a `Sequence`, an invoked procedure's
body — is returned by the single-step evaluator as a `Thunk` rather than by
recursively invoking the driving loop; and the trampoline driver
`Meaning.evaluate` computes exactly the same results as fully recursive
evaluation (`evalRec`), which is the stated meaning of "a chain of tail
calls of any length is executed by iterating the one driver loop". -/
theorem claim_C4_tail_thunks_and_trampoline_equivalence (h : Heap) :
    (∀ fuel st first second act v st',
      Meaning.evaluate h fuel st first act = some (.ok (v, st')) →
      evaluate_to_thunk h (fuel + 1) st (.Sequence first second) act =
        some (.ok (.Thunk second, act, st'))) ∧
    (∀ fuel st condition consequent alternative act v st',
      Meaning.evaluate h fuel st condition act = some (.ok (v, st')) →
      evaluate_to_thunk h (fuel + 1) st
          (.Conditional condition consequent alternative) act =
        some (.ok (.Thunk (if v = Value.Boolean false then alternative
          else consequent), act, st'))) ∧
    (∀ fuel st operator operands act opv st₁ pp proc args st₂ slots,
      Meaning.evaluate h fuel st operator act = some (.ok (opv, st₁)) →
      opv.to_procedure = some pp →
      st₁.procedures[pp]? = some proc →
      evalOperands h fuel st₁ operands act = some (.ok (args, st₂)) →
      bindParams h fuel proc.params args = some (.ok slots) →
      evaluate_to_thunk h (fuel + 1) st (.Invocation operator operands) act =
        some (.ok (.Thunk proc.body,
          (st₂.allocActivation ⟨some proc.env, slots⟩).1,
          (st₂.allocActivation ⟨some proc.env, slots⟩).2))) ∧
    (∀ st m act r,
      (∃ fuel, Meaning.evaluate h fuel st m act = some r) ↔
      (∃ fuel, evalRec h fuel st m act = some r)) := by
  refine ⟨?_, ?_, ?_, ?_⟩
  · intro fuel st first second act v st' h1
    simp [evaluate_to_thunk, h1]
  · intro fuel st condition consequent alternative act v st' h1
    simp [evaluate_to_thunk, h1]
  · intro fuel st operator operands act opv st₁ pp proc args st₂ slots
      hop hcoerce hproc hops hbind
    simp [evaluate_to_thunk, hop, hcoerce, hproc, hops, hbind]
  · intro st m act r
    constructor
    · rintro ⟨fuel, hf⟩
      exact (to_evalRec h fuel).2.1 hf
    · rintro ⟨fuel, hf⟩
      exact (to_trampoline h fuel).1 hf

/-- Witness for C4: the step on `Sequence(Quotation 1, Quotation 2)` thunks
the second element, and the trampoline agrees with recursive evaluation on
that sequence. -/
theorem claim_C4_witness :
    evaluate_to_thunk (mkHeap []) 3 initialStore
        (.Sequence (.Quotation (.Integer 1)) (.Quotation (.Integer 2))) 0 =
      some (.ok (.Thunk (.Quotation (.Integer 2)), 0, initialStore)) ∧
    (∃ fuel, Meaning.evaluate (mkHeap []) fuel initialStore
        (.Sequence (.Quotation (.Integer 1)) (.Quotation (.Integer 2))) 0 =
      some (.ok (.Integer 2, initialStore))) :=
  ⟨(claim_C4_tail_thunks_and_trampoline_equivalence (mkHeap [])).1 2
      initialStore (.Quotation (.Integer 1)) (.Quotation (.Integer 2)) 0
      (.Integer 1) initialStore rfl,
    ((claim_C4_tail_thunks_and_trampoline_equivalence (mkHeap [])).2.2.2
      initialStore (.Sequence (.Quotation (.Integer 1))
        (.Quotation (.Integer 2))) 0 (.ok (.Integer 2, initialStore))).mpr
      ⟨2, rfl⟩⟩

end Oxischeme
